import Mathlib

/-!
Shallow embedding of the clip-selection core of `src/davinci_resolve_generator.py`
(repository y-ogi/photos2videos).  Python floats are modelled as rationals.
Python's global random source is modelled as an explicit oracle: a list of
rationals, one entry consumed per primitive random call (`random.uniform`,
`random.choice`, `random.randint`), each entry clamped to `[0,1]` and scaled to
the requested range, so that every value the Python primitives can produce is
reachable by some oracle.  The mutable `VideoFile` objects become explicit
state passing, the `set` of `(start, end)` tuples becomes a duplicate-free
list, raised exceptions become `Option.none`, and file paths and timestamp
strings become natural-number identifiers (timestamp strings are 14-digit
decimal strings, so Python's lexicographic string order coincides with the
numeric order used here).
-/

namespace P2V

/-- The constant `VideoFile.min_gap = 1.0` (seconds) set in `VideoFile.__init__`. -/
def min_gap : ℚ := 1

/-- State of one `VideoFile` object: its path (as an id), probed duration,
extracted timestamp and the mutable `used_ranges` set of `(start, end)` pairs. -/
structure VideoFile where
  id : ℕ
  duration : ℚ
  timestamp : ℕ
  used_ranges : List (ℚ × ℚ)
deriving DecidableEq, Repr

/-- The `ClipInfo` dataclass of the source. -/
structure ClipInfo where
  file : ℕ
  start : ℚ
  duration : ℚ
  file_timestamp : ℕ
  scene_score : ℚ := 0
  motion_score : ℚ := 0
  color_variance : ℚ := 0
deriving DecidableEq, Repr

/-- Randomness oracle: the stream of values consumed by the random primitives. -/
abbrev Oracle := List ℚ

/-- Consume one oracle entry (0 when the stream is exhausted). -/
def onext : Oracle → ℚ × Oracle
  | [] => (0, [])
  | q :: rest => (q, rest)

/-- Clamp an oracle entry into `[0, 1]`. -/
def clamp01 (q : ℚ) : ℚ := max 0 (min 1 q)

/-- Model of `random.uniform(a, b)`: `a + (b - a) * r` with `r ∈ [0, 1]`. -/
def uniformDraw (a b : ℚ) (o : Oracle) : ℚ × Oracle :=
  let p := onext o
  (a + (b - a) * clamp01 p.1, p.2)

/-- Model of `random.choice` over a list of `n` elements: an index `< n`
derived from the consumed oracle entry (a one-element list leaves no choice). -/
def chooseIdx (n : ℕ) (o : Oracle) : ℕ × Oracle :=
  let p := onext o
  match n with
  | 0 => (0, p.2)
  | 1 => (0, p.2)
  | Nat.succ (Nat.succ m) => (min (m + 1) (Int.toNat ⌊clamp01 p.1 * (m + 2)⌋), p.2)

/-- Model of `random.randint(1, 3)`. -/
def randint13 (o : Oracle) : ℕ × Oracle :=
  let p := onext o
  (1 + min 2 (Int.toNat ⌊clamp01 p.1 * 3⌋), p.2)

/-- Lexicographic order on `(start, end)` pairs, as Python's `sorted` uses on
the tuples in `used_ranges`. -/
def rangeLe (a b : ℚ × ℚ) : Prop := a.1 < b.1 ∨ (a.1 = b.1 ∧ a.2 ≤ b.2)

instance : DecidableRel rangeLe := fun a b => by unfold rangeLe; infer_instance

/-- Python's `sorted(self.used_ranges)`. -/
def sortedRanges (vf : VideoFile) : List (ℚ × ℚ) := List.insertionSort rangeLe vf.used_ranges

/-- `VideoFile.get_available_duration`. -/
def getAvailableDuration (vf : VideoFile) : ℚ :=
  if vf.used_ranges = [] then vf.duration
  else
    let used := (vf.used_ranges.map (fun r => r.2 - r.1)).sum
    let gap := if 1 < vf.used_ranges.length then min_gap * ((vf.used_ranges.length : ℚ) - 1) else 0
    vf.duration - used - gap

/-- The method call `get_available_duration()` as a (value, post-state) pair:
the method reads the tracker state and mutates nothing. -/
def getAvailableDurationCall (vf : VideoFile) : ℚ × VideoFile :=
  (getAvailableDuration vf, vf)

/-- The loop in `can_extract_clip` checking consecutive sorted ranges:
`gap >= clip_duration + self.min_gap * 2` for some adjacent pair. -/
def betweenGapOk (L : ℚ) : List (ℚ × ℚ) → Bool
  | a :: b :: rest => (decide (L + 2 * min_gap ≤ b.1 - a.2)) || betweenGapOk L (b :: rest)
  | _ => false

/-- `VideoFile.can_extract_clip`. -/
def canExtractClip (vf : VideoFile) (L : ℚ) : Bool :=
  if vf.duration < L then false
  else
    let sr := sortedRanges vf
    let beforeOk : Bool :=
      match sr.head? with
      | some r => decide (L ≤ r.1)
      | none => false
    let afterOk : Bool :=
      match sr.getLast? with
      | some r => decide (L + min_gap ≤ vf.duration - r.2)
      | none => false
    beforeOk || betweenGapOk L sr || afterOk ||
      decide (L + min_gap ≤ getAvailableDuration vf)

/-- The loop in `find_available_position` collecting gaps between consecutive
used ranges: start bound `prev.end + min_gap`, end bound `next.start - min_gap`,
kept when the gap holds a clip of length `L`. -/
def midRanges (L : ℚ) : List (ℚ × ℚ) → List (ℚ × ℚ)
  | a :: b :: rest =>
      (if L ≤ (b.1 - min_gap) - (a.2 + min_gap) then [(a.2 + min_gap, (b.1 - min_gap) - L)]
       else []) ++ midRanges L (b :: rest)
  | _ => []

/-- The `available_ranges` list built by `find_available_position` when
`used_ranges` is non-empty: each entry is the closed interval of admissible
start offsets of one maximal free gap. -/
def availableRanges (vf : VideoFile) (L : ℚ) : List (ℚ × ℚ) :=
  let sr := sortedRanges vf
  let before :=
    match sr.head? with
    | some r => if L + min_gap ≤ r.1 then [((0 : ℚ), r.1 - L - min_gap)] else []
    | none => []
  let after :=
    match sr.getLast? with
    | some r => if L ≤ vf.duration - (r.2 + min_gap) then [(r.2 + min_gap, vf.duration - L)]
                else []
    | none => []
  before ++ midRanges L sr ++ after

/-- `VideoFile.find_available_position`: `none` models the raised `ValueError`.
With an empty `used_ranges` the source draws `random.uniform(0, duration - L)`
without any capacity check; otherwise it picks one admissible range uniformly
and then a uniform start inside it. -/
def findAvailablePosition (vf : VideoFile) (L : ℚ) (o : Oracle) : Option (ℚ × Oracle) :=
  if vf.used_ranges = [] then
    some (uniformDraw 0 (vf.duration - L) o)
  else
    let ranges := availableRanges vf L
    if ranges = [] then none
    else
      let p := chooseIdx ranges.length o
      let r := ranges.getD p.1 (0, 0)
      some (uniformDraw r.1 r.2 p.2)

/-- `VideoFile.add_used_range`: inserting into the `used_ranges` set. -/
def addUsedRange (vf : VideoFile) (s dur : ℚ) : VideoFile :=
  if (s, s + dur) ∈ vf.used_ranges then vf
  else { vf with used_ranges := vf.used_ranges ++ [(s, s + dur)] }

/-- The score dictionary built by `analyze_video_segment`. -/
structure Features where
  scene_score : ℚ
  motion_score : ℚ
  color_variance : ℚ
deriving DecidableEq, Repr

/-- Environment outcome of one `analyze_video_segment` call: the `ffprobe`
subprocess and surrounding I/O either succeed, fail with the handled
`CalledProcessError`, or fail with any other exception before the scores are
assigned (temp-file creation failure, `json.load` failure, ...), which lands in
the outer `except Exception` handler. -/
inductive AnalysisOutcome
  | ok
  | probeFail
  | otherFail
deriving DecidableEq, Repr

/-- One `random.uniform(0.1, 0.9)` score draw. -/
def drawFeature (o : Oracle) : ℚ × Oracle := uniformDraw (1 / 10) (9 / 10) o

/-- `analyze_video_segment`: the result dict starts as all zeros; on subprocess
success and on the handled `CalledProcessError` all three scores are drawn
uniformly from `[0.1, 0.9]`; any other exception leaves the zeros in place.
The function itself never raises. -/
def analyzeVideoSegment (outcome : AnalysisOutcome) (o : Oracle) : Features × Oracle :=
  match outcome with
  | .otherFail => (⟨0, 0, 0⟩, o)
  | _ =>
    let p1 := drawFeature o
    let p2 := drawFeature p1.2
    let p3 := drawFeature p2.2
    (⟨p1.1, p2.1, p3.1⟩, p3.2)

/-- Stream of environment outcomes for successive `analyze_video_segment`
calls; exhausted stream defaults to success. -/
abbrev Outcomes := List AnalysisOutcome

/-- Consume one outcome. -/
def outnext : Outcomes → AnalysisOutcome × Outcomes
  | [] => (.ok, [])
  | a :: rest => (a, rest)

/-- A call of `analyze_video_segment` inside the selection engine, consuming
the next environment outcome. -/
def analyzeNext (o : Oracle) (outs : Outcomes) : Features × Oracle × Outcomes :=
  let p := outnext outs
  let q := analyzeVideoSegment p.1 o
  (q.1, q.2, p.2)

/-- `math.ceil(total_duration / clip_duration)` (`num_clips_needed` before the
capacity cap). -/
def numClipsNeeded0 (L total : ℚ) : ℤ := ⌈total / L⌉

/-- The `file_potentials` list: files of duration at least `clip_duration`,
each with `math.floor(duration / clip_duration)`. -/
def filePotentials (files : List VideoFile) (L : ℚ) : List (VideoFile × ℤ) :=
  files.filterMap (fun vf => if L ≤ vf.duration then some (vf, ⌊vf.duration / L⌋) else none)

/-- `total_possible_clips`: the summed potentials. -/
def totalPossibleClips (files : List VideoFile) (L : ℚ) : ℤ :=
  ((filePotentials files L).map (fun p => p.2)).sum

/-- `num_clips_needed` after the cap to `total_possible_clips`. -/
def numClipsNeeded (files : List VideoFile) (L total : ℚ) : ℤ :=
  let n0 := numClipsNeeded0 L total
  let tp := totalPossibleClips files L
  if tp < n0 then tp else n0

/-- Pair each file with its position, so that a commit can write back to the
file list (Python mutates the shared `VideoFile` objects in place). -/
def withIndices (k : ℕ) : List VideoFile → List (ℕ × VideoFile)
  | [] => []
  | f :: rest => (k, f) :: withIndices (k + 1) rest

/-- The `available_files` filter of both selection loops. -/
def availableFiles (files : List VideoFile) (L : ℚ) : List (ℕ × VideoFile) :=
  (withIndices 0 files).filter (fun p => canExtractClip p.2 L)

/-- Python's stable `sort(key=available_duration, reverse=True)`: an element
goes before another iff its key is at least as large. -/
def availLe (a b : ℕ × VideoFile) : Prop :=
  getAvailableDuration b.2 ≤ getAvailableDuration a.2

instance : DecidableRel availLe := fun a b => by unfold availLe; infer_instance

/-- Sort the available files by descending available duration, keep the top
half (`available_files[:max(1, len(available_files) // 2)]`) and draw one
uniformly (`random.choice`). -/
def topHalfChoice (avail : List (ℕ × VideoFile)) (o : Oracle) : (ℕ × VideoFile) × Oracle :=
  let sortedAvail := List.insertionSort availLe avail
  let top := sortedAvail.take (max 1 (sortedAvail.length / 2))
  let p := chooseIdx top.length o
  (top.getD p.1 (0, ⟨0, 0, 0, []⟩), p.2)

/-- Lexicographic `(file_timestamp, start)` order used by the final
`selected_clips.sort(key=lambda x: (x.file_timestamp, x.start))`. -/
def clipLe (a b : ClipInfo) : Prop :=
  a.file_timestamp < b.file_timestamp ∨
    (a.file_timestamp = b.file_timestamp ∧ a.start ≤ b.start)

instance : DecidableRel clipLe := fun a b => by unfold clipLe; infer_instance

/-- The `while len(selected_clips) < num_clips_needed` loop of `select_clips`,
with explicit fuel: `none` means the fuel ran out before the loop finished.
One fuel unit is one loop iteration. -/
def selectClipsLoop (L : ℚ) (needed : ℤ) :
    ℕ → List VideoFile → List ClipInfo → Oracle → Option (List ClipInfo × List VideoFile)
  | 0, _, _, _ => none
  | Nat.succ fuel, files, clips, o =>
    if needed ≤ (clips.length : ℤ) then some (clips, files)
    else
      let avail := availableFiles files L
      if avail = [] then some (clips, files)
      else
        let pc := topHalfChoice avail o
        match findAvailablePosition pc.1.2 L pc.2 with
        | none => selectClipsLoop L needed fuel files clips pc.2
        | some (s, o2) =>
          let files2 := files.set pc.1.1 (addUsedRange pc.1.2 s L)
          let clip : ClipInfo :=
            { file := pc.1.2.id, start := s, duration := L, file_timestamp := pc.1.2.timestamp }
          selectClipsLoop L needed fuel files2 (clips ++ [clip]) o2

/-- `select_clips`: the plain selection policy.  Returns the sorted clip list
together with the final file states; `none` when the fuel runs out. -/
def selectClips (files : List VideoFile) (L total : ℚ) (fuel : ℕ) (o : Oracle) :
    Option (List ClipInfo × List VideoFile) :=
  let needed := numClipsNeeded files L total
  match selectClipsLoop L needed fuel files [] o with
  | none => none
  | some (clips, files2) => some (List.insertionSort clipLe clips, files2)

/-- Mean of the three feature fields over a list (`np.mean` per field). -/
def featMean (fs : List Features) : Features :=
  ⟨((fs.map Features.scene_score).sum) / fs.length,
   ((fs.map Features.motion_score).sum) / fs.length,
   ((fs.map Features.color_variance).sum) / fs.length⟩

/-- `diversity_score`: mean absolute difference to the mean features of the
already selected clips; `0` when nothing is selected yet. -/
def diversityScore (selected : List Features) (f : Features) : ℚ :=
  if selected = [] then 0
  else
    let m := featMean selected
    (|f.scene_score - m.scene_score| + |f.motion_score - m.motion_score| +
      |f.color_variance - m.color_variance|) / 3

/-- `quality_score`: mean of the candidate's own three feature values. -/
def qualityScore (f : Features) : ℚ :=
  (f.scene_score + f.motion_score + f.color_variance) / 3

/-- `final_score = (1 - diversity_weight) * quality + diversity_weight * diversity`. -/
def finalScore (w : ℚ) (selected : List Features) (f : Features) : ℚ :=
  (1 - w) * qualityScore f + w * diversityScore selected f

/-- The running best candidate of the smart loop:
`(file index, file, start, features, final score)`. -/
abbrev BestCand := Option (ℕ × VideoFile × ℚ × Features × ℚ)

/-- One candidate probe of the smart loop: `find_available_position` (a raised
`ValueError` is caught and skips the probe), `analyze_video_segment`, scoring,
and `final_score > best_score` (`best_score` starts at `-inf`, so the first
scored candidate always wins). -/
def tryCandidate (w : ℚ) (selected : List Features) (L : ℚ) (i : ℕ) (vf : VideoFile)
    (best : BestCand) (o : Oracle) (outs : Outcomes) : BestCand × Oracle × Outcomes :=
  match findAvailablePosition vf L o with
  | none => (best, o, outs)
  | some (s, o1) =>
    let a := analyzeNext o1 outs
    let sc := finalScore w selected a.1
    let better : Bool :=
      match best with
      | none => true
      | some b => decide (b.2.2.2.2 < sc)
    if better then (some (i, vf, s, a.1, sc), a.2.1, a.2.2) else (best, a.2.1, a.2.2)

/-- The `for _ in range(5)` candidate probes on one file. -/
def tryCandidates (w : ℚ) (selected : List Features) (L : ℚ) (i : ℕ) (vf : VideoFile) :
    ℕ → BestCand → Oracle → Outcomes → BestCand × Oracle × Outcomes
  | 0, best, o, outs => (best, o, outs)
  | Nat.succ n, best, o, outs =>
    let p := tryCandidate w selected L i vf best o outs
    tryCandidates w selected L i vf n p.1 p.2.1 p.2.2

/-- The `for video_file in available_files` candidate evaluation. -/
def evalAllFiles (w : ℚ) (selected : List Features) (L : ℚ) :
    List (ℕ × VideoFile) → BestCand → Oracle → Outcomes → BestCand × Oracle × Outcomes
  | [], best, o, outs => (best, o, outs)
  | p :: rest, best, o, outs =>
    let q := tryCandidates w selected L p.1 p.2 5 best o outs
    evalAllFiles w selected L rest q.1 q.2.1 q.2.2

/-- One file's sampling pass of `select_clips_smart`: three sample windows are
analyzed and their features averaged.  The sample start offsets are computed
deterministically and consume no randomness, so only the three
`analyze_video_segment` calls appear here. -/
def sampleFileFeatures (o : Oracle) (outs : Outcomes) : Features × Oracle × Outcomes :=
  let s1 := analyzeNext o outs
  let s2 := analyzeNext s1.2.1 s1.2.2
  let s3 := analyzeNext s2.2.1 s2.2.2
  (featMean [s1.1, s2.1, s3.1], s3.2.1, s3.2.2)

/-- The `file_features` sampling phase over all potential files.  The computed
per-file averages are stored in `file_features` but never read again by the
selection loop in the source, so only the stream consumption matters. -/
def sampleAllFiles : List (VideoFile × ℤ) → Oracle → Outcomes → List Features × Oracle × Outcomes
  | [], o, outs => ([], o, outs)
  | _ :: rest, o, outs =>
    let s := sampleFileFeatures o outs
    let r := sampleAllFiles rest s.2.1 s.2.2
    (s.1 :: r.1, r.2.1, r.2.2)

/-- The `while` loop of `select_clips_smart`.  When candidate evaluation found
a best clip it is committed; otherwise the plain policy's draw is used as a
fallback, whose `ValueError` is caught and restarts the loop. -/
def selectClipsSmartLoop (L w : ℚ) (needed : ℤ) :
    ℕ → List VideoFile → List ClipInfo → List Features → Oracle → Outcomes →
      Option (List ClipInfo × List VideoFile)
  | 0, _, _, _, _, _ => none
  | Nat.succ fuel, files, clips, selected, o, outs =>
    if needed ≤ (clips.length : ℤ) then some (clips, files)
    else
      let avail := availableFiles files L
      if avail = [] then some (clips, files)
      else
        let ev := evalAllFiles w selected L avail none o outs
        match ev.1 with
        | some (i, vf, s, f, _) =>
          let files2 := files.set i (addUsedRange vf s L)
          let clip : ClipInfo :=
            { file := vf.id, start := s, duration := L, file_timestamp := vf.timestamp,
              scene_score := f.scene_score, motion_score := f.motion_score,
              color_variance := f.color_variance }
          selectClipsSmartLoop L w needed fuel files2 (clips ++ [clip]) (selected ++ [f])
            ev.2.1 ev.2.2
        | none =>
          let pc := topHalfChoice avail ev.2.1
          match findAvailablePosition pc.1.2 L pc.2 with
          | none => selectClipsSmartLoop L w needed fuel files clips selected pc.2 ev.2.2
          | some (s, o2) =>
            let a := analyzeNext o2 ev.2.2
            let files2 := files.set pc.1.1 (addUsedRange pc.1.2 s L)
            let clip : ClipInfo :=
              { file := pc.1.2.id, start := s, duration := L,
                file_timestamp := pc.1.2.timestamp,
                scene_score := a.1.scene_score, motion_score := a.1.motion_score,
                color_variance := a.1.color_variance }
            selectClipsSmartLoop L w needed fuel files2 (clips ++ [clip]) (selected ++ [a.1])
              a.2.1 a.2.2

/-- `select_clips_smart`: capacity computation, the sampling phase, the smart
selection loop, and the final `(file_timestamp, start)` sort. -/
def selectClipsSmart (files : List VideoFile) (L total w : ℚ) (fuel : ℕ) (o : Oracle)
    (outs : Outcomes) : Option (List ClipInfo × List VideoFile) :=
  let needed := numClipsNeeded files L total
  let smp := sampleAllFiles (filePotentials files L) o outs
  match selectClipsSmartLoop L w needed fuel files [] [] smp.2.1 smp.2.2 with
  | none => none
  | some (clips, files2) => some (List.insertionSort clipLe clips, files2)

/-- `n` draws of `random.uniform(0, d)` in `detect_scene_changes`. -/
def drawUniformList : ℕ → ℚ → Oracle → List ℚ × Oracle
  | 0, _, o => ([], o)
  | Nat.succ n, d, o =>
    let p := uniformDraw 0 d o
    let r := drawUniformList n d p.2
    (p.1 :: r.1, r.2)

/-- `detect_scene_changes`: `random.randint(1, 3)` scene offsets drawn
uniformly from `[0, duration]` and sorted ascending. -/
def detectSceneChanges (d : ℚ) (o : Oracle) : List ℚ × Oracle :=
  let pn := randint13 o
  let draws := drawUniformList pn.1 d pn.2
  (List.insertionSort (fun a b => a ≤ b) draws.1, draws.2)

/-- Python's `min(scene_changes, key=lambda x: abs(x - mid_point))`: scans left
to right keeping the first element of strictly smallest key. -/
def minByDistAux (mid best : ℚ) : List ℚ → ℚ
  | [] => best
  | x :: rest => minByDistAux mid (if |x - mid| < |best - mid| then x else best) rest

/-- `find_optimal_transition_point`: the detected scene offset closest to the
clip midpoint, translated to an absolute position (`detect_scene_changes`
always returns at least one offset, so the midpoint fallback is dead code in
the source but kept here). -/
def findOptimalTransitionPoint (start d : ℚ) (o : Oracle) : ℚ × Oracle :=
  let sc := detectSceneChanges d o
  match sc.1 with
  | [] => (start + d / 2, sc.2)
  | x :: rest => (start + minByDistAux (d / 2) x rest, sc.2)

/-- The per-clip body of `optimize_clip_transitions`: accept the proposed
start iff `abs(shift) <= clip.duration * 0.2`, else keep the clip unchanged. -/
def optimizeOneClip (c : ClipInfo) (o : Oracle) : ClipInfo × Oracle :=
  let p := findOptimalTransitionPoint c.start c.duration o
  let shift := p.1 - c.start
  if |shift| ≤ c.duration * (1 / 5) then ({ c with start := p.1 }, p.2) else (c, p.2)

/-- `optimize_clip_transitions` over the whole clip list. -/
def optimizeClipTransitions : List ClipInfo → Oracle → List ClipInfo
  | [], _ => []
  | c :: rest, o =>
    let p := optimizeOneClip c o
    p.1 :: optimizeClipTransitions rest p.2

/-- Two committed ranges do not overlap and keep at least `min_gap` distance. -/
def Separated (r1 r2 : ℚ × ℚ) : Prop := r1.2 + min_gap ≤ r2.1 ∨ r2.2 + min_gap ≤ r1.1

instance : DecidableRel Separated := fun a b => by unfold Separated; infer_instance

/-- In a sorted committed list: the earlier range ends at least `min_gap`
before the later one starts. -/
def StrongSep (a b : ℚ × ℚ) : Prop := a.2 + min_gap ≤ b.1

/-- Each committed range lies inside `[0, duration]` with ordered endpoints. -/
def RangeWF (vf : VideoFile) : Prop :=
  ∀ r ∈ vf.used_ranges, 0 ≤ r.1 ∧ r.1 ≤ r.2 ∧ r.2 ≤ vf.duration

/-- The tracker invariant: well-formed ranges, pairwise separated. -/
def TrackerInv (vf : VideoFile) : Prop := RangeWF vf ∧ vf.used_ranges.Pairwise Separated

/-- A start offset the tracker may legitimately hand out for length `L`. -/
def GoodPos (vf : VideoFile) (L s : ℚ) : Prop :=
  0 ≤ s ∧ s + L ≤ vf.duration ∧ ∀ r ∈ vf.used_ranges, Separated r (s, s + L)

/-- Tracker states reachable by the selection engine: a fresh file, or a
commit of a position handed out by `find_available_position` after the
engine's `can_extract_clip` filter, with the requested clip length. -/
inductive Reachable : VideoFile → Prop
  | init (i : ℕ) (d : ℚ) (ts : ℕ) (hd : 0 ≤ d) : Reachable ⟨i, d, ts, []⟩
  | commit (vf : VideoFile) (L s : ℚ) (o o' : Oracle) (hr : Reachable vf) (hL : 0 < L)
      (hcan : canExtractClip vf L = true)
      (hf : findAvailablePosition vf L o = some (s, o')) : Reachable (addUsedRange vf s L)

/-- All files of a selection run satisfy the tracker invariant. -/
def FilesInv (files : List VideoFile) : Prop := ∀ f ∈ files, TrackerInv f

/-- A clip's window is registered in its owning file's committed set and lies
inside the file. -/
def ClipOwned (files : List VideoFile) (c : ClipInfo) : Prop :=
  ∃ (i : ℕ) (vf : VideoFile), files[i]? = some vf ∧ vf.id = c.file ∧ 0 ≤ c.start ∧
    c.start + c.duration ≤ vf.duration ∧ (c.start, c.start + c.duration) ∈ vf.used_ranges

/-- The `available_duration` formula as worded by the specification: total
duration minus the committed lengths, minus `min_gap * (count - 1)` when
`count > 1`, else the plain remaining duration. -/
def availableDurationSpecC9 (vf : VideoFile) : ℚ :=
  let used := (vf.used_ranges.map (fun r => r.2 - r.1)).sum
  if 1 < vf.used_ranges.length then
    vf.duration - used - min_gap * ((vf.used_ranges.length : ℚ) - 1)
  else vf.duration - used

instance : IsTotal (ℚ × ℚ) rangeLe where
  total a b := by
    unfold rangeLe
    rcases lt_trichotomy a.1 b.1 with h | h | h
    · exact Or.inl (Or.inl h)
    · rcases le_total a.2 b.2 with h2 | h2
      · exact Or.inl (Or.inr ⟨h, h2⟩)
      · exact Or.inr (Or.inr ⟨h.symm, h2⟩)
    · exact Or.inr (Or.inl h)

instance : IsTrans (ℚ × ℚ) rangeLe where
  trans a b c hab hbc := by
    unfold rangeLe at *
    rcases hab with h1 | ⟨h1, h1'⟩ <;> rcases hbc with h2 | ⟨h2, h2'⟩
    · exact Or.inl (h1.trans h2)
    · exact Or.inl (h2 ▸ h1)
    · exact Or.inl (h1 ▸ h2)
    · exact Or.inr ⟨h1.trans h2, h1'.trans h2'⟩

instance : IsTotal ClipInfo clipLe where
  total a b := by
    unfold clipLe
    rcases lt_trichotomy a.file_timestamp b.file_timestamp with h | h | h
    · exact Or.inl (Or.inl h)
    · rcases le_total a.start b.start with h2 | h2
      · exact Or.inl (Or.inr ⟨h, h2⟩)
      · exact Or.inr (Or.inr ⟨h.symm, h2⟩)
    · exact Or.inr (Or.inl h)

instance : IsTrans ClipInfo clipLe where
  trans a b c hab hbc := by
    unfold clipLe at *
    rcases hab with h1 | ⟨h1, h1'⟩ <;> rcases hbc with h2 | ⟨h2, h2'⟩
    · exact Or.inl (h1.trans h2)
    · exact Or.inl (h2 ▸ h1)
    · exact Or.inl (h1 ▸ h2)
    · exact Or.inr ⟨h1.trans h2, h1'.trans h2'⟩

lemma clamp01_nonneg (q : ℚ) : 0 ≤ clamp01 q := le_max_left 0 _

lemma clamp01_le_one (q : ℚ) : clamp01 q ≤ 1 := by
  unfold clamp01
  rcases le_total 0 (min 1 q) with h | h
  · rw [max_eq_right h]; exact min_le_left 1 q
  · rw [max_eq_left h]; exact zero_le_one

lemma uniformDraw_le (a b : ℚ) (o : Oracle) (hab : a ≤ b) :
    a ≤ (uniformDraw a b o).1 ∧ (uniformDraw a b o).1 ≤ b := by
  unfold uniformDraw
  constructor
  · have := mul_nonneg (sub_nonneg.mpr hab) (clamp01_nonneg (onext o).1)
    simpa using this
  · have h1 : (b - a) * clamp01 (onext o).1 ≤ (b - a) * 1 :=
      mul_le_mul_of_nonneg_left (clamp01_le_one _) (sub_nonneg.mpr hab)
    simp only []
    nlinarith [h1]

lemma chooseIdx_lt (n : ℕ) (o : Oracle) (hn : 0 < n) : (chooseIdx n o).1 < n := by
  unfold chooseIdx
  rcases n with _ | n2
  · omega
  · rcases n2 with _ | m
    · simp
    · simp only []
      omega

lemma getD_mem {α : Type} (l : List α) (i : ℕ) (d : α) (h : i < l.length) : l.getD i d ∈ l := by
  rw [List.getD_eq_getElem?_getD, List.getElem?_eq_getElem h]
  exact List.getElem_mem h

lemma sortedRanges_perm (vf : VideoFile) : (sortedRanges vf).Perm vf.used_ranges :=
  List.perm_insertionSort rangeLe vf.used_ranges

lemma sortedRanges_sorted (vf : VideoFile) : List.Sorted rangeLe (sortedRanges vf) :=
  List.sorted_insertionSort rangeLe vf.used_ranges

lemma separated_symm : ∀ {a b : ℚ × ℚ}, Separated a b → Separated b a := by
  intro a b h
  unfold Separated at *
  exact h.symm

lemma rangeLe_fst {a b : ℚ × ℚ} (h : rangeLe a b) : a.1 ≤ b.1 := by
  rcases h with h | ⟨h, _⟩
  · exact h.le
  · exact h.le

lemma pairwise_strongSep (vf : VideoFile) (h : TrackerInv vf) :
    (sortedRanges vf).Pairwise StrongSep := by
  have hs : (sortedRanges vf).Pairwise rangeLe := sortedRanges_sorted vf
  have hp : (sortedRanges vf).Pairwise Separated :=
    h.2.perm (sortedRanges_perm vf).symm separated_symm
  have hwf : ∀ r ∈ sortedRanges vf, r.1 ≤ r.2 := by
    intro r hr
    exact (h.1 r ((sortedRanges_perm vf).mem_iff.mp hr)).2.1
  refine (hs.and hp).imp_of_mem ?_
  intro a b ha hb hab
  rcases hab.2 with hsep | hsep
  · exact hsep
  · exfalso
    have h1 : a.1 ≤ b.1 := rangeLe_fst hab.1
    have h2 : b.1 ≤ b.2 := hwf b hb
    have : min_gap ≤ 0 := by linarith
    rw [min_gap] at this
    linarith

lemma canExtract_le (vf : VideoFile) (L : ℚ) (h : canExtractClip vf L = true) :
    L ≤ vf.duration := by
  unfold canExtractClip at h
  by_contra hlt
  rw [if_pos (lt_of_not_le hlt)] at h
  exact Bool.false_ne_true h

lemma head_min (a : ℚ × ℚ) (l : List (ℚ × ℚ)) (hp : (a :: l).Pairwise StrongSep)
    (hwf : ∀ r ∈ a :: l, r.1 ≤ r.2) : ∀ r ∈ a :: l, a.1 ≤ r.1 := by
  intro r hr
  rcases List.mem_cons.mp hr with rfl | hr2
  · exact le_refl _
  · have h1 : StrongSep a r := (List.pairwise_cons.mp hp).1 r hr2
    have h2 : a.1 ≤ a.2 := hwf a (List.mem_cons_self a l)
    unfold StrongSep at h1
    rw [min_gap] at h1
    linarith

lemma last_max : ∀ (l : List (ℚ × ℚ)) (h : l ≠ []), l.Pairwise StrongSep →
    (∀ r ∈ l, r.1 ≤ r.2) → ∀ r ∈ l, r.2 ≤ (l.getLast h).2
  | [], h => absurd rfl h
  | [a], _ => by
    intro _ _ r hr
    rcases List.mem_singleton.mp hr with rfl
    exact le_refl _
  | a :: b :: t, _ => by
    intro hp hwf r hr
    have hne : b :: t ≠ [] := List.cons_ne_nil b t
    have ih := last_max (b :: t) hne (List.pairwise_cons.mp hp).2
      (fun x hx => hwf x (List.mem_cons_of_mem a hx))
    rw [List.getLast_cons hne]
    rcases List.mem_cons.mp hr with rfl | hr2
    · have h1 : StrongSep r b := (List.pairwise_cons.mp hp).1 b (List.mem_cons_self b t)
      have h3 : b.1 ≤ b.2 := hwf b (List.mem_cons_of_mem r (List.mem_cons_self b t))
      have h4 : b.2 ≤ ((b :: t).getLast hne).2 := ih b (List.mem_cons_self b t)
      have hmg : min_gap = 1 := rfl
      unfold StrongSep at h1
      linarith
    · exact ih r hr2

lemma midRanges_spec : ∀ (l : List (ℚ × ℚ)) (L lo hi : ℚ), l.Pairwise StrongSep →
    (∀ r ∈ l, r.1 ≤ r.2) → (lo, hi) ∈ midRanges L l →
    (∃ a ∈ l, lo = a.2 + min_gap) ∧ (∃ b ∈ l, hi + L = b.1 - min_gap) ∧ lo ≤ hi ∧
      ∀ r ∈ l, r.2 + min_gap ≤ lo ∨ hi + L + min_gap ≤ r.1
  | [] => by intro L lo hi _ _ hmem; simp [midRanges] at hmem
  | [a] => by intro L lo hi _ _ hmem; simp [midRanges] at hmem
  | a :: b :: rest => by
    intro L lo hi hp hwf hmem
    have hpbr := (List.pairwise_cons.mp hp).2
    have hsab : StrongSep a b := (List.pairwise_cons.mp hp).1 b (List.mem_cons_self b rest)
    unfold midRanges at hmem
    rcases List.mem_append.mp hmem with hm1 | hm2
    · by_cases hg : L ≤ (b.1 - min_gap) - (a.2 + min_gap)
      · rw [if_pos hg] at hm1
        have heq := List.mem_singleton.mp hm1
        have hlo : lo = a.2 + min_gap := congrArg Prod.fst heq
        have hhi : hi = (b.1 - min_gap) - L := congrArg Prod.snd heq
        subst hlo hhi
        refine ⟨⟨a, List.mem_cons_self a _, rfl⟩,
          ⟨b, List.mem_cons_of_mem a (List.mem_cons_self b rest), by ring⟩,
          by linarith, ?_⟩
        intro r hr
        rcases List.mem_cons.mp hr with rfl | hr2
        · exact Or.inl (le_refl _)
        · rcases List.mem_cons.mp hr2 with rfl | hr3
          · exact Or.inr (by linarith)
          · right
            have h1 : StrongSep b r := (List.pairwise_cons.mp hpbr).1 r hr3
            have h2 : b.1 ≤ b.2 :=
              hwf b (List.mem_cons_of_mem a (List.mem_cons_self b rest))
            unfold StrongSep at h1
            have hmg : min_gap = 1 := rfl
            linarith
      · rw [if_neg hg] at hm1
        simp at hm1
    · have ih := midRanges_spec (b :: rest) L lo hi hpbr
        (fun x hx => hwf x (List.mem_cons_of_mem a hx)) hm2
      obtain ⟨⟨c, hc, hlo⟩, ⟨d, hd, hhi⟩, hlohi, hall⟩ := ih
      refine ⟨⟨c, List.mem_cons_of_mem a hc, hlo⟩,
        ⟨d, List.mem_cons_of_mem a hd, hhi⟩, hlohi, ?_⟩
      intro r hr
      rcases List.mem_cons.mp hr with rfl | hr2
      · left
        have h1 : StrongSep r c := (List.pairwise_cons.mp hp).1 c hc
        have h2 : c.1 ≤ c.2 := hwf c (List.mem_cons_of_mem r hc)
        rw [hlo]
        unfold StrongSep at h1
        have hmg : min_gap = 1 := rfl
        linarith
      · exact hall r hr2

lemma availableRanges_spec (vf : VideoFile) (L lo hi : ℚ) (h : TrackerInv vf)
    (hmem : (lo, hi) ∈ availableRanges vf L) :
    0 ≤ lo ∧ lo ≤ hi ∧ hi + L ≤ vf.duration ∧
      ∀ r ∈ vf.used_ranges, r.2 + min_gap ≤ lo ∨ hi + L + min_gap ≤ r.1 := by
  have hps := pairwise_strongSep vf h
  have hwfs : ∀ r ∈ sortedRanges vf, 0 ≤ r.1 ∧ r.1 ≤ r.2 ∧ r.2 ≤ vf.duration := by
    intro r hr
    exact h.1 r ((sortedRanges_perm vf).mem_iff.mp hr)
  have htr : ∀ P : (ℚ × ℚ) → Prop, (∀ r ∈ sortedRanges vf, P r) → ∀ r ∈ vf.used_ranges, P r := by
    intro P hP r hr
    exact hP r ((sortedRanges_perm vf).mem_iff.mpr hr)
  unfold availableRanges at hmem
  rcases hsr : sortedRanges vf with _ | ⟨hd, tl⟩
  · rw [hsr] at hmem
    simp [midRanges] at hmem
  · rw [hsr] at hmem hps hwfs
    have hwf2 : ∀ r ∈ hd :: tl, r.1 ≤ r.2 := fun r hr => (hwfs r hr).2.1
    have hne : hd :: tl ≠ [] := List.cons_ne_nil hd tl
    have hgl : (hd :: tl).getLast? = some ((hd :: tl).getLast hne) :=
      List.getLast?_eq_getLast _ hne
    simp only [List.head?_cons, hgl] at hmem
    rcases List.mem_append.mp hmem with hm | hafter
    · rcases List.mem_append.mp hm with hbefore | hmid
      · by_cases hg : L + min_gap ≤ hd.1
        · rw [if_pos hg] at hbefore
          have heq := List.mem_singleton.mp hbefore
          have hlo : lo = 0 := congrArg Prod.fst heq
          have hhi : hi = hd.1 - L - min_gap := congrArg Prod.snd heq
          subst hlo hhi
          have hwfhd := hwfs hd (List.mem_cons_self hd tl)
          have hmg : min_gap = 1 := rfl
          refine ⟨le_refl 0, by linarith, by linarith, ?_⟩
          refine htr _ ?_
          intro r hr
          rw [hsr] at hr
          right
          have := head_min hd tl hps hwf2 r hr
          linarith
        · rw [if_neg hg] at hbefore
          simp at hbefore
      · obtain ⟨⟨a, ha, hlo⟩, ⟨b, hb, hhi⟩, hlohi, hall⟩ :=
          midRanges_spec (hd :: tl) L lo hi hps hwf2 hmid
        have hwfa := hwfs a ha
        have hwfb := hwfs b hb
        have hmg : min_gap = 1 := rfl
        refine ⟨by linarith, hlohi, by linarith, ?_⟩
        refine htr _ ?_
        intro r hr
        rw [hsr] at hr
        exact hall r hr
    · by_cases hg : L ≤ vf.duration - (((hd :: tl).getLast hne).2 + min_gap)
      · rw [if_pos hg] at hafter
        have heq := List.mem_singleton.mp hafter
        have hlo : lo = ((hd :: tl).getLast hne).2 + min_gap := congrArg Prod.fst heq
        have hhi : hi = vf.duration - L := congrArg Prod.snd heq
        subst hlo hhi
        have hwfl := hwfs ((hd :: tl).getLast hne) (List.getLast_mem hne)
        have hmg : min_gap = 1 := rfl
        refine ⟨by linarith, by linarith, by linarith, ?_⟩
        refine htr _ ?_
        intro r hr
        rw [hsr] at hr
        left
        have := last_max (hd :: tl) hne hps hwf2 r hr
        linarith
      · rw [if_neg hg] at hafter
        simp at hafter

lemma findPos_spec (vf : VideoFile) (L s : ℚ) (o o' : Oracle) (h : TrackerInv vf)
    (hLD : L ≤ vf.duration) (hf : findAvailablePosition vf L o = some (s, o')) :
    GoodPos vf L s := by
  unfold findAvailablePosition at hf
  by_cases hemp : vf.used_ranges = []
  · rw [if_pos hemp] at hf
    have heq := Option.some.inj hf
    have hs : (uniformDraw 0 (vf.duration - L) o).1 = s := congrArg Prod.fst heq
    have hb := uniformDraw_le 0 (vf.duration - L) o (by linarith)
    rw [hs] at hb
    refine ⟨hb.1, by linarith [hb.2], ?_⟩
    intro r hr
    rw [hemp] at hr
    exact absurd hr (List.not_mem_nil r)
  · rw [if_neg hemp] at hf
    by_cases hr : availableRanges vf L = []
    · rw [if_pos hr] at hf
      exact absurd hf (by simp)
    · rw [if_neg hr] at hf
      simp only [] at hf
      have hlen : 0 < (availableRanges vf L).length := List.length_pos.mpr hr
      have hidx := chooseIdx_lt (availableRanges vf L).length o hlen
      have hmem : (availableRanges vf L).getD (chooseIdx (availableRanges vf L).length o).1 (0, 0)
          ∈ availableRanges vf L := getD_mem _ _ _ hidx
      have hmem2 : (((availableRanges vf L).getD (chooseIdx (availableRanges vf L).length o).1
            (0, 0)).1,
          ((availableRanges vf L).getD (chooseIdx (availableRanges vf L).length o).1 (0, 0)).2)
          ∈ availableRanges vf L := by
        rw [Prod.mk.eta]
        exact hmem
      obtain ⟨h0, hlohi, hbound, hsep⟩ := availableRanges_spec vf L _ _ h hmem2
      have heq := Option.some.inj hf
      have hs : s = (uniformDraw
          ((availableRanges vf L).getD (chooseIdx (availableRanges vf L).length o).1 (0, 0)).1
          ((availableRanges vf L).getD (chooseIdx (availableRanges vf L).length o).1 (0, 0)).2
          (chooseIdx (availableRanges vf L).length o).2).1 := (congrArg Prod.fst heq).symm
      have hb := uniformDraw_le
        ((availableRanges vf L).getD (chooseIdx (availableRanges vf L).length o).1 (0, 0)).1
        ((availableRanges vf L).getD (chooseIdx (availableRanges vf L).length o).1 (0, 0)).2
        (chooseIdx (availableRanges vf L).length o).2 hlohi
      rw [← hs] at hb
      refine ⟨by linarith [hb.1], by linarith [hb.2], ?_⟩
      intro r hrr
      rcases hsep r hrr with hc | hc
      · exact Or.inl (show r.2 + min_gap ≤ s by linarith [hb.1])
      · exact Or.inr (show s + L + min_gap ≤ r.1 by linarith [hb.2])

lemma addUsedRange_id (vf : VideoFile) (s L : ℚ) : (addUsedRange vf s L).id = vf.id := by
  unfold addUsedRange
  split <;> rfl

lemma addUsedRange_duration (vf : VideoFile) (s L : ℚ) :
    (addUsedRange vf s L).duration = vf.duration := by
  unfold addUsedRange
  split <;> rfl

lemma addUsedRange_timestamp (vf : VideoFile) (s L : ℚ) :
    (addUsedRange vf s L).timestamp = vf.timestamp := by
  unfold addUsedRange
  split <;> rfl

lemma addUsedRange_mem (vf : VideoFile) (s L : ℚ) :
    ∀ r ∈ vf.used_ranges, r ∈ (addUsedRange vf s L).used_ranges := by
  intro r hr
  unfold addUsedRange
  split
  · exact hr
  · exact List.mem_append.mpr (Or.inl hr)

lemma addUsedRange_self_mem (vf : VideoFile) (s L : ℚ) :
    (s, s + L) ∈ (addUsedRange vf s L).used_ranges := by
  unfold addUsedRange
  split
  · assumption
  · exact List.mem_append.mpr (Or.inr (List.mem_singleton.mpr rfl))

lemma inv_addUsedRange (vf : VideoFile) (s L : ℚ) (h : TrackerInv vf) (h0 : 0 ≤ s)
    (hL : 0 ≤ L) (hsL : s + L ≤ vf.duration)
    (hsep : ∀ r ∈ vf.used_ranges, Separated r (s, s + L)) :
    TrackerInv (addUsedRange vf s L) := by
  unfold addUsedRange
  split
  · exact h
  · constructor
    · intro r hr
      rcases List.mem_append.mp hr with hr2 | hr2
      · exact h.1 r hr2
      · rcases List.mem_singleton.mp hr2 with rfl
        exact ⟨h0, show s ≤ s + L by linarith, hsL⟩
    · rw [List.pairwise_append]
      refine ⟨h.2, List.pairwise_singleton _ _, ?_⟩
      intro a ha b hb
      rcases List.mem_singleton.mp hb with rfl
      exact hsep a ha

lemma betweenGapOk_of_midRanges : ∀ (l : List (ℚ × ℚ)) (L : ℚ) (x : ℚ × ℚ),
    x ∈ midRanges L l → betweenGapOk L l = true
  | [], L, x => by intro hx; simp [midRanges] at hx
  | [a], L, x => by intro hx; simp [midRanges] at hx
  | a :: b :: rest, L, x => by
    intro hx
    unfold midRanges at hx
    unfold betweenGapOk
    rw [Bool.or_eq_true]
    rcases List.mem_append.mp hx with h1 | h2
    · by_cases hg : L ≤ (b.1 - min_gap) - (a.2 + min_gap)
      · left
        exact decide_eq_true (by have hmg : min_gap = 1 := rfl; linarith)
      · rw [if_neg hg] at h1
        simp at h1
    · right
      exact betweenGapOk_of_midRanges (b :: rest) L x h2

lemma midRanges_exists : ∀ (l : List (ℚ × ℚ)) (L : ℚ) (x : ℚ × ℚ), x ∈ midRanges L l →
    ∃ a ∈ l, ∃ b ∈ l, L + 2 * min_gap ≤ b.1 - a.2
  | [], L, x => by intro hx; simp [midRanges] at hx
  | [a], L, x => by intro hx; simp [midRanges] at hx
  | a :: b :: rest, L, x => by
    intro hx
    unfold midRanges at hx
    rcases List.mem_append.mp hx with h1 | h2
    · by_cases hg : L ≤ (b.1 - min_gap) - (a.2 + min_gap)
      · exact ⟨a, List.mem_cons_self a _, b,
          List.mem_cons_of_mem a (List.mem_cons_self b rest),
          by have hmg : min_gap = 1 := rfl; linarith⟩
      · rw [if_neg hg] at h1
        simp at h1
    · obtain ⟨a2, ha2, b2, hb2, h⟩ := midRanges_exists (b :: rest) L x h2
      exact ⟨a2, List.mem_cons_of_mem a ha2, b2, List.mem_cons_of_mem a hb2, h⟩

lemma canExtract_true_of (vf : VideoFile) (L : ℚ) (hD : ¬ vf.duration < L)
    (h : (match (sortedRanges vf).head? with
            | some r => decide (L ≤ r.1)
            | none => false) = true ∨
          betweenGapOk L (sortedRanges vf) = true ∨
          (match (sortedRanges vf).getLast? with
            | some r => decide (L + min_gap ≤ vf.duration - r.2)
            | none => false) = true ∨
          decide (L + min_gap ≤ getAvailableDuration vf) = true) :
    canExtractClip vf L = true := by
  unfold canExtractClip
  rw [if_neg hD]
  simp only [Bool.or_eq_true]
  tauto

lemma span_bound : ∀ (l : List (ℚ × ℚ)) (h : l ≠ []), l.Pairwise StrongSep →
    (∀ r ∈ l, r.1 ≤ r.2) →
    ((l.map fun r => r.2 - r.1).sum + ((l.length : ℚ) - 1) ≤ (l.getLast h).2 - (l.head h).1)
  | [], h => absurd rfl h
  | [a], _ => by
    intro _ _
    simp [List.getLast, List.head]
  | a :: b :: t, _ => by
    intro hp hwf
    have hne : b :: t ≠ [] := List.cons_ne_nil b t
    have ih := span_bound (b :: t) hne (List.pairwise_cons.mp hp).2
      (fun x hx => hwf x (List.mem_cons_of_mem a hx))
    have hsab : StrongSep a b := (List.pairwise_cons.mp hp).1 b (List.mem_cons_self b t)
    rw [List.getLast_cons hne]
    unfold StrongSep at hsab
    have hmg : min_gap = 1 := rfl
    have hha : (b :: t).head hne = b := rfl
    rw [hha] at ih
    simp only [List.map_cons, List.sum_cons, List.length_cons, List.head_cons] at *
    push_cast at *
    linarith

lemma reachable_inv (vf : VideoFile) (h : Reachable vf) :
    TrackerInv vf ∧ 0 ≤ vf.duration := by
  induction h with
  | init i d ts hd =>
    refine ⟨⟨?_, List.Pairwise.nil⟩, hd⟩
    intro r hr
    exact absurd hr (List.not_mem_nil r)
  | commit vf L s o o' hr hL hcan hf ih =>
    have hLD := canExtract_le vf L hcan
    have hg := findPos_spec vf L s o o' ih.1 hLD hf
    refine ⟨inv_addUsedRange vf s L ih.1 hg.1 hL.le hg.2.1 hg.2.2, ?_⟩
    rw [addUsedRange_duration]
    exact ih.2

lemma availDur_nonneg (vf : VideoFile) (hinv : TrackerInv vf) (hd : 0 ≤ vf.duration) :
    0 ≤ getAvailableDuration vf := by
  unfold getAvailableDuration
  by_cases hemp : vf.used_ranges = []
  · rw [if_pos hemp]
    exact hd
  · rw [if_neg hemp]
    simp only []
    have hperm := sortedRanges_perm vf
    have hps := pairwise_strongSep vf hinv
    have hsne : sortedRanges vf ≠ [] := by
      intro h0
      have hl := hperm.length_eq
      rw [h0] at hl
      exact hemp (List.length_eq_zero.mp hl.symm)
    have hsum : ((sortedRanges vf).map fun r => r.2 - r.1).sum
        = (vf.used_ranges.map fun r => r.2 - r.1).sum := (hperm.map _).sum_eq
    have hlen : (sortedRanges vf).length = vf.used_ranges.length := hperm.length_eq
    have hsb := span_bound (sortedRanges vf) hsne hps
      (fun r hr => (hinv.1 r (hperm.mem_iff.mp hr)).2.1)
    have hhead : 0 ≤ ((sortedRanges vf).head hsne).1 :=
      (hinv.1 _ (hperm.mem_iff.mp (List.head_mem hsne))).1
    have hlast : ((sortedRanges vf).getLast hsne).2 ≤ vf.duration :=
      (hinv.1 _ (hperm.mem_iff.mp (List.getLast_mem hsne))).2.2
    rw [hsum, hlen] at hsb
    have hlen1 : 1 ≤ vf.used_ranges.length := by
      rcases Nat.eq_zero_or_pos vf.used_ranges.length with h0 | h0
      · exact absurd (List.length_eq_zero.mp h0) hemp
      · exact h0
    have hmg : min_gap = 1 := rfl
    by_cases h1 : 1 < vf.used_ranges.length
    · rw [if_pos h1]
      have hc : (1 : ℚ) ≤ (vf.used_ranges.length : ℚ) := by exact_mod_cast hlen1
      nlinarith [hsb, hhead, hlast]
    · rw [if_neg h1]
      have hc : vf.used_ranges.length = 1 := le_antisymm (not_lt.mp h1) hlen1
      rw [hc] at hsb
      push_cast at hsb
      linarith

lemma availDur_formula (vf : VideoFile) :
    getAvailableDuration vf = availableDurationSpecC9 vf := by
  unfold getAvailableDuration availableDurationSpecC9
  by_cases hemp : vf.used_ranges = []
  · rw [if_pos hemp]
    rw [hemp]
    simp
  · rw [if_neg hemp]
    simp only []
    by_cases h1 : 1 < vf.used_ranges.length
    · rw [if_pos h1, if_pos h1]
    · rw [if_neg h1, if_neg h1]
      ring

/-- C9: `get_available_duration` returns the total duration minus the sum of
committed interval lengths minus `min_gap * (count - 1)` when `count > 1`, else
the plain remaining duration; on every state reachable through the selection
engine the result is nonnegative; and two consecutive calls with no
intervening commit return the same value. -/
theorem C9_available_duration (vf : VideoFile) :
    getAvailableDuration vf = availableDurationSpecC9 vf ∧
    (Reachable vf → 0 ≤ getAvailableDuration vf) ∧
    (getAvailableDurationCall vf).1 = (getAvailableDurationCall ((getAvailableDurationCall vf).2)).1 := by
  refine ⟨availDur_formula vf, ?_, rfl⟩
  intro h
  obtain ⟨hinv, hd⟩ := reachable_inv vf h
  exact availDur_nonneg vf hinv hd

/-- Witness for C9 at a concrete reachable tracker state. -/
theorem C9_available_duration_witness : 0 ≤ getAvailableDuration ⟨0, 10, 0, [(0, 4)]⟩ := by
  have h2 : Reachable (addUsedRange ⟨0, 10, 0, []⟩ 0 4) :=
    Reachable.commit ⟨0, 10, 0, []⟩ 4 0 [0, 0] [0] (Reachable.init 0 10 0 (by norm_num))
      (by norm_num) (by with_unfolding_all decide) (by with_unfolding_all decide)
  have h4 : addUsedRange ⟨0, 10, 0, []⟩ 0 4 = ⟨0, 10, 0, [(0, 4)]⟩ := by
    with_unfolding_all decide
  rw [h4] at h2
  exact (C9_available_duration ⟨0, 10, 0, [(0, 4)]⟩).2.1 h2

/-- C1: on every tracker state reachable by committing positions handed out by
`find_available_position` (as both selection policies do), no two committed
intervals overlap and every pair of distinct committed intervals is separated
by at least `min_gap = 1.0` seconds. -/
theorem C1_committed_invariant (vf : VideoFile) (h : Reachable vf) :
    vf.used_ranges.Pairwise (fun r1 r2 =>
      (r1.2 ≤ r2.1 ∨ r2.2 ≤ r1.1) ∧
      (r1.2 + min_gap ≤ r2.1 ∨ r2.2 + min_gap ≤ r1.1)) := by
  have hinv := (reachable_inv vf h).1
  refine hinv.2.imp ?_
  intro a b hab
  have hmg : min_gap = 1 := rfl
  rcases hab with h1 | h1
  · exact ⟨Or.inl (by linarith), Or.inl h1⟩
  · exact ⟨Or.inr (by linarith), Or.inr h1⟩

/-- Witness for C1 after one concrete commit. -/
theorem C1_committed_invariant_witness :
    (⟨0, 10, 0, [(0, 4)]⟩ : VideoFile).used_ranges.Pairwise (fun r1 r2 =>
      (r1.2 ≤ r2.1 ∨ r2.2 ≤ r1.1) ∧
      (r1.2 + min_gap ≤ r2.1 ∨ r2.2 + min_gap ≤ r1.1)) := by
  have h2 : Reachable (addUsedRange ⟨0, 10, 0, []⟩ 0 4) :=
    Reachable.commit ⟨0, 10, 0, []⟩ 4 0 [0, 0] [0] (Reachable.init 0 10 0 (by norm_num))
      (by norm_num) (by with_unfolding_all decide) (by with_unfolding_all decide)
  have h4 : addUsedRange ⟨0, 10, 0, []⟩ 0 4 = ⟨0, 10, 0, [(0, 4)]⟩ := by
    with_unfolding_all decide
  rw [h4] at h2
  exact C1_committed_invariant _ h2

/-- C10: with no committed intervals and `0 ≤ L ≤ D`, `find_available_position`
always succeeds and returns a start offset in `[0, D - L]`. -/
theorem C10_round_trip (vf : VideoFile) (L : ℚ) (o : Oracle) (hemp : vf.used_ranges = [])
    (h0 : 0 ≤ L) (hLD : L ≤ vf.duration) :
    ∃ s o', findAvailablePosition vf L o = some (s, o') ∧ 0 ≤ s ∧ s ≤ vf.duration - L := by
  unfold findAvailablePosition
  rw [if_pos hemp]
  have hb := uniformDraw_le 0 (vf.duration - L) o (by linarith)
  refine ⟨(uniformDraw 0 (vf.duration - L) o).1, (uniformDraw 0 (vf.duration - L) o).2,
    ?_, hb.1, hb.2⟩
  rw [Prod.mk.eta]

/-- Witness for C10 at a concrete empty tracker. -/
theorem C10_round_trip_witness :
    ∃ s o', findAvailablePosition ⟨0, 7, 0, []⟩ 3 [1/2] = some (s, o') ∧ 0 ≤ s ∧ s ≤ 7 - 3 :=
  C10_round_trip ⟨0, 7, 0, []⟩ 3 [1/2] rfl (by norm_num) (by norm_num)

/-- C2 (counterexample): `can_extract_clip` and `find_available_position` are
not equivalent.  With no committed ranges and `D = L = 5` the former returns
`false` while the latter succeeds (false negative); with `D = 6`,
`used = {(5, 6)}` and `L = 5` the former returns `true` while the latter
raises (false positive). -/
theorem C2_counterexample :
    canExtractClip ⟨0, 5, 0, []⟩ 5 = false ∧
    findAvailablePosition ⟨0, 5, 0, []⟩ 5 [0] = some (0, []) ∧
    canExtractClip ⟨0, 6, 0, [(5, 6)]⟩ 5 = true ∧
    findAvailablePosition ⟨0, 6, 0, [(5, 6)]⟩ 5 [0] = none := by
  with_unfolding_all decide

/-- C2 (amended): on a well-formed tracker state with at least one committed
interval, a success of `find_available_position(L)` implies
`can_extract_clip(L) = true`; the converse and the empty-state case fail (see
the counterexample). -/
theorem C2_can_fit_propose (vf : VideoFile) (L s : ℚ) (o o' : Oracle)
    (hne : vf.used_ranges ≠ []) (hwf : RangeWF vf)
    (hf : findAvailablePosition vf L o = some (s, o')) :
    canExtractClip vf L = true := by
  unfold findAvailablePosition at hf
  rw [if_neg hne] at hf
  by_cases hr : availableRanges vf L = []
  · rw [if_pos hr] at hf
    exact absurd hf (by simp)
  · obtain ⟨x, hmem⟩ := List.exists_mem_of_ne_nil _ hr
    unfold availableRanges at hmem
    rcases hsr : sortedRanges vf with _ | ⟨hd, tl⟩
    · exfalso
      have hl := (sortedRanges_perm vf).length_eq
      rw [hsr] at hl
      exact hne (List.length_eq_zero.mp hl.symm)
    · have hne2 : hd :: tl ≠ [] := List.cons_ne_nil hd tl
      simp only [hsr, List.head?_cons, List.getLast?_eq_getLast _ hne2] at hmem
      have hwfs : ∀ r ∈ hd :: tl, 0 ≤ r.1 ∧ r.1 ≤ r.2 ∧ r.2 ≤ vf.duration := by
        intro r hr2
        exact hwf r ((sortedRanges_perm vf).mem_iff.mp (by rw [hsr]; exact hr2))
      have hmg : min_gap = 1 := rfl
      rcases List.mem_append.mp hmem with hm | hafter
      · rcases List.mem_append.mp hm with hbefore | hmid
        · by_cases hg : L + min_gap ≤ hd.1
          · have hwfhd := hwfs hd (List.mem_cons_self hd tl)
            have hD : ¬ vf.duration < L := not_lt.mpr (by linarith)
            apply canExtract_true_of vf L hD
            left
            rw [hsr, List.head?_cons]
            exact decide_eq_true (by linarith)
          · rw [if_neg hg] at hbefore
            simp at hbefore
        · have hex := midRanges_exists (hd :: tl) L x hmid
          obtain ⟨a, ha, b, hb, hab⟩ := hex
          have hwfa := hwfs a ha
          have hwfb := hwfs b hb
          have hD : ¬ vf.duration < L := not_lt.mpr (by linarith)
          apply canExtract_true_of vf L hD
          right; left
          rw [hsr]
          exact betweenGapOk_of_midRanges (hd :: tl) L x hmid
      · by_cases hg : L ≤ vf.duration - (((hd :: tl).getLast hne2).2 + min_gap)
        · have hwfl := hwfs _ (List.getLast_mem hne2)
          have hD : ¬ vf.duration < L := not_lt.mpr (by linarith)
          apply canExtract_true_of vf L hD
          right; right; left
          rw [hsr, List.getLast?_eq_getLast _ hne2]
          exact decide_eq_true (by linarith)
        · rw [if_neg hg] at hafter
          simp at hafter

/-- Witness for the amended C2 at a concrete non-empty tracker. -/
theorem C2_can_fit_propose_witness : canExtractClip ⟨0, 10, 0, [(0, 2)]⟩ 3 = true :=
  C2_can_fit_propose ⟨0, 10, 0, [(0, 2)]⟩ 3 3 [0, 0] [] (by with_unfolding_all decide)
    (by unfold RangeWF; with_unfolding_all decide) (by with_unfolding_all decide)

lemma minByDistAux_spec (mid : ℚ) : ∀ (l : List ℚ) (best : ℚ),
    (minByDistAux mid best l = best ∨ minByDistAux mid best l ∈ l) ∧
    |minByDistAux mid best l - mid| ≤ |best - mid| ∧
    ∀ x ∈ l, |minByDistAux mid best l - mid| ≤ |x - mid|
  | [], best => ⟨Or.inl rfl, le_refl _, fun x hx => absurd hx (List.not_mem_nil x)⟩
  | x :: rest, best => by
    have ih := minByDistAux_spec mid rest (if |x - mid| < |best - mid| then x else best)
    obtain ⟨hmem, hle, hall⟩ := ih
    unfold minByDistAux
    by_cases hc : |x - mid| < |best - mid|
    · rw [if_pos hc] at hmem hle hall ⊢
      refine ⟨?_, by linarith, ?_⟩
      · rcases hmem with h | h
        · exact Or.inr (by rw [h]; exact List.mem_cons_self x rest)
        · exact Or.inr (List.mem_cons_of_mem x h)
      · intro y hy
        rcases List.mem_cons.mp hy with rfl | hy2
        · exact hle
        · exact hall y hy2
    · rw [if_neg hc] at hmem hle hall ⊢
      push_neg at hc
      refine ⟨?_, hle, ?_⟩
      · rcases hmem with h | h
        · exact Or.inl h
        · exact Or.inr (List.mem_cons_of_mem x h)
      · intro y hy
        rcases List.mem_cons.mp hy with rfl | hy2
        · linarith
        · exact hall y hy2

lemma randint13_pos (o : Oracle) : 1 ≤ (randint13 o).1 := by
  unfold randint13
  simp only []
  omega

lemma drawUniformList_spec : ∀ (n : ℕ) (d : ℚ) (o : Oracle), 0 ≤ d →
    (drawUniformList n d o).1.length = n ∧ ∀ x ∈ (drawUniformList n d o).1, 0 ≤ x ∧ x ≤ d
  | 0, d, o => by
    intro _
    exact ⟨rfl, fun x hx => absurd hx (List.not_mem_nil x)⟩
  | Nat.succ n, d, o => by
    intro hd
    have ih := drawUniformList_spec n d (uniformDraw 0 d o).2 hd
    have hb := uniformDraw_le 0 d o hd
    unfold drawUniformList
    simp only []
    constructor
    · simp [ih.1]
    · intro x hx
      rcases List.mem_cons.mp hx with rfl | hx2
      · exact ⟨hb.1, hb.2⟩
      · exact ih.2 x hx2

lemma detectSceneChanges_spec (d : ℚ) (o : Oracle) (hd : 0 ≤ d) :
    (detectSceneChanges d o).1 ≠ [] ∧ ∀ x ∈ (detectSceneChanges d o).1, 0 ≤ x ∧ x ≤ d := by
  unfold detectSceneChanges
  simp only []
  have hn := randint13_pos o
  have hds := drawUniformList_spec (randint13 o).1 d (randint13 o).2 hd
  have hperm := List.perm_insertionSort (fun a b => a ≤ b)
    (drawUniformList (randint13 o).1 d (randint13 o).2).1
  constructor
  · intro h0
    have hl := hperm.length_eq
    rw [h0, hds.1] at hl
    simp at hl
    omega
  · intro x hx
    exact hds.2 x (hperm.mem_iff.mp hx)

lemma optimizeOneClip_eq (c : ClipInfo) (o : Oracle) (x : ℚ) (rest : List ℚ)
    (hsc : (detectSceneChanges c.duration o).1 = x :: rest) :
    (optimizeOneClip c o).1 =
      if |minByDistAux (c.duration / 2) x rest| ≤ c.duration * (1 / 5)
      then { c with start := c.start + minByDistAux (c.duration / 2) x rest } else c := by
  unfold optimizeOneClip findOptimalTransitionPoint
  simp only [hsc]
  have harith : c.start + minByDistAux (c.duration / 2) x rest - c.start
      = minByDistAux (c.duration / 2) x rest := by ring
  rw [harith]
  by_cases hcond : |minByDistAux (c.duration / 2) x rest| ≤ c.duration * (1 / 5)
  · rw [if_pos hcond, if_pos hcond]
  · rw [if_neg hcond, if_neg hcond]

/-- C3 (amended): for every clip processed by the optimizer, the chosen
candidate offset is the detected offset closest to the clip midpoint and lies
in `[0, duration]`; the shift is accepted (the start becomes `start + offset`)
iff `|offset| ≤ 0.2 * duration` — the distance of the offset from the clip
START, not from the midpoint as the claim states; the boundary case is
accepted, and a rejected clip is returned unmodified. -/
theorem C3_transition_tolerance (c : ClipInfo) (o : Oracle) (hd : 0 < c.duration) :
    ∃ ch, ch ∈ (detectSceneChanges c.duration o).1 ∧
      (∀ x ∈ (detectSceneChanges c.duration o).1,
        |ch - c.duration / 2| ≤ |x - c.duration / 2|) ∧
      0 ≤ ch ∧ ch ≤ c.duration ∧
      (|ch| ≤ c.duration * (1 / 5) →
        (optimizeOneClip c o).1 = { c with start := c.start + ch }) ∧
      (c.duration * (1 / 5) < |ch| → (optimizeOneClip c o).1 = c) := by
  obtain ⟨hne, hbounds⟩ := detectSceneChanges_spec c.duration o hd.le
  rcases hsc : (detectSceneChanges c.duration o).1 with _ | ⟨x, rest⟩
  · exact absurd hsc hne
  · obtain ⟨hmem, hle, hall⟩ := minByDistAux_spec (c.duration / 2) rest x
    have hmem2 : minByDistAux (c.duration / 2) x rest ∈ x :: rest := by
      rcases hmem with h | h
      · rw [h]
        exact List.mem_cons_self x rest
      · exact List.mem_cons_of_mem x h
    have heq := optimizeOneClip_eq c o x rest hsc
    rw [hsc] at hbounds
    refine ⟨minByDistAux (c.duration / 2) x rest, hmem2, ?_, ?_, ?_, ?_, ?_⟩
    · intro y hy
      rcases List.mem_cons.mp hy with rfl | hy2
      · exact hle
      · exact hall y hy2
    · exact (hbounds _ hmem2).1
    · exact (hbounds _ hmem2).2
    · intro hacc
      rw [heq, if_pos hacc]
    · intro hrej
      rw [heq, if_neg (not_le.mpr hrej)]

/-- Witness for the amended C3 at a concrete clip and oracle. -/
theorem C3_transition_tolerance_witness :
    ∃ ch, ch ∈ (detectSceneChanges (10 : ℚ) [0, 3/10]).1 ∧
      (∀ x ∈ (detectSceneChanges (10 : ℚ) [0, 3/10]).1,
        |ch - 10 / 2| ≤ |x - 10 / 2|) ∧
      0 ≤ ch ∧ ch ≤ 10 ∧
      (|ch| ≤ 10 * (1 / 5) →
        (optimizeOneClip ⟨0, 0, 10, 0, 0, 0, 0⟩ [0, 3/10]).1 = ⟨0, 0 + ch, 10, 0, 0, 0, 0⟩) ∧
      (10 * (1 / 5) < |ch| →
        (optimizeOneClip ⟨0, 0, 10, 0, 0, 0, 0⟩ [0, 3/10]).1 = ⟨0, 0, 10, 0, 0, 0, 0⟩) :=
  C3_transition_tolerance ⟨0, 0, 10, 0, 0, 0, 0⟩ [0, 3/10] (by norm_num)

/-- C3 (counterexample): with duration `10` and forced candidate offset `3.0`,
the claim's tolerance `|3 - 10/2| = 2 ≤ 0.2 * 10` holds, so the claim demands
the shift be accepted; the code instead compares `|3| = 3 > 2` and leaves the
clip unmodified (start stays `0`, not `0 + 3`). -/
theorem C3_counterexample :
    (detectSceneChanges 10 [0, 3/10]).1 = [3] ∧
    |(3 : ℚ) - 10 / 2| ≤ (1 / 5) * 10 ∧
    (optimizeOneClip ⟨0, 0, 10, 0, 0, 0, 0⟩ [0, 3/10]).1.start = 0 ∧ (0 : ℚ) ≠ 0 + 3 := by
  with_unfolding_all decide

/-- C6 (amended): `analyze_video_segment` always returns normally; on the
handled `ffprobe` failure the three scores are drawn from `[0.1, 0.9]` exactly
as on success, but any other failure returns the zero vector `(0, 0, 0)`
instead of a default-range random vector. -/
theorem C6_analysis_failure (o : Oracle) (outcome : AnalysisOutcome) :
    (outcome = .ok ∨ outcome = .probeFail →
      (1/10 ≤ (analyzeVideoSegment outcome o).1.scene_score ∧
        (analyzeVideoSegment outcome o).1.scene_score ≤ 9/10) ∧
      (1/10 ≤ (analyzeVideoSegment outcome o).1.motion_score ∧
        (analyzeVideoSegment outcome o).1.motion_score ≤ 9/10) ∧
      (1/10 ≤ (analyzeVideoSegment outcome o).1.color_variance ∧
        (analyzeVideoSegment outcome o).1.color_variance ≤ 9/10)) ∧
    analyzeVideoSegment .otherFail o = (⟨0, 0, 0⟩, o) := by
  constructor
  · intro hcase
    have h1 := uniformDraw_le (1/10) (9/10) o (by norm_num)
    have h2 := uniformDraw_le (1/10) (9/10) (uniformDraw (1/10) (9/10) o).2 (by norm_num)
    have h3 := uniformDraw_le (1/10) (9/10)
      (uniformDraw (1/10) (9/10) (uniformDraw (1/10) (9/10) o).2).2 (by norm_num)
    rcases hcase with rfl | rfl
    · exact ⟨⟨h1.1, h1.2⟩, ⟨h2.1, h2.2⟩, ⟨h3.1, h3.2⟩⟩
    · exact ⟨⟨h1.1, h1.2⟩, ⟨h2.1, h2.2⟩, ⟨h3.1, h3.2⟩⟩
  · rfl

/-- Witness for the amended C6 on the handled-failure path. -/
theorem C6_analysis_failure_witness :
    (1/10 ≤ (analyzeVideoSegment .probeFail []).1.scene_score ∧
      (analyzeVideoSegment .probeFail []).1.scene_score ≤ 9/10) ∧
    (1/10 ≤ (analyzeVideoSegment .probeFail []).1.motion_score ∧
      (analyzeVideoSegment .probeFail []).1.motion_score ≤ 9/10) ∧
    (1/10 ≤ (analyzeVideoSegment .probeFail []).1.color_variance ∧
      (analyzeVideoSegment .probeFail []).1.color_variance ≤ 9/10) :=
  (C6_analysis_failure [] .probeFail).1 (Or.inr rfl)

/-- C6 (counterexample): a failure that reaches the outer handler (any
exception other than the handled subprocess error) yields the zero vector,
whose components are not in `[0.1, 0.9]`. -/
theorem C6_counterexample :
    analyzeVideoSegment .otherFail [1/2, 1/2, 1/2] = (⟨0, 0, 0⟩, [1/2, 1/2, 1/2]) ∧
    ¬ ((1 : ℚ)/10 ≤ (analyzeVideoSegment .otherFail [1/2, 1/2, 1/2]).1.scene_score) :=
  ⟨rfl, show ¬ ((1 : ℚ)/10 ≤ 0) by norm_num⟩

lemma withIndices_mem : ∀ (k : ℕ) (files : List VideoFile) (i : ℕ) (vf : VideoFile),
    (i, vf) ∈ withIndices k files → ∃ j, i = k + j ∧ files[j]? = some vf
  | k, [], i, vf => by
    intro h
    simp [withIndices] at h
  | k, f :: rest, i, vf => by
    intro h
    unfold withIndices at h
    rcases List.mem_cons.mp h with heq | h2
    · have hi : i = k := congrArg Prod.fst heq
      have hv : vf = f := congrArg Prod.snd heq
      exact ⟨0, by omega, by simp [hv]⟩
    · obtain ⟨j, hj, hget⟩ := withIndices_mem (k + 1) rest i vf h2
      exact ⟨j + 1, by omega, by simpa using hget⟩

lemma availableFiles_mem (files : List VideoFile) (L : ℚ) (i : ℕ) (vf : VideoFile)
    (h : (i, vf) ∈ availableFiles files L) :
    files[i]? = some vf ∧ canExtractClip vf L = true := by
  unfold availableFiles at h
  have h2 := List.mem_filter.mp h
  obtain ⟨j, hj, hget⟩ := withIndices_mem 0 files i vf h2.1
  have hij : i = j := by omega
  subst hij
  exact ⟨hget, by simpa using h2.2⟩

lemma topHalfChoice_mem (avail : List (ℕ × VideoFile)) (o : Oracle) (hne : avail ≠ []) :
    (topHalfChoice avail o).1 ∈ avail := by
  unfold topHalfChoice
  simp only []
  have hperm := List.perm_insertionSort availLe avail
  have hpos : 0 < avail.length := List.length_pos.mpr hne
  have htake : 0 < ((List.insertionSort availLe avail).take
      (max 1 ((List.insertionSort availLe avail).length / 2))).length := by
    rw [List.length_take, hperm.length_eq]
    omega
  have hidx := chooseIdx_lt _ o htake
  have hmem := getD_mem _ _ ((0, ⟨0, 0, 0, []⟩) : ℕ × VideoFile) hidx
  exact hperm.mem_iff.mp (List.mem_of_mem_take hmem)

lemma filesInv_set (files : List VideoFile) (i : ℕ) (nvf : VideoFile)
    (hinv : FilesInv files) (hnew : TrackerInv nvf) : FilesInv (files.set i nvf) := by
  intro f hf
  rcases List.mem_or_eq_of_mem_set hf with h | h
  · exact hinv f h
  · exact h ▸ hnew

lemma clipOwned_set (files : List VideoFile) (i : ℕ) (vf : VideoFile) (s L : ℚ) (c : ClipInfo)
    (hget : files[i]? = some vf) (h : ClipOwned files c) :
    ClipOwned (files.set i (addUsedRange vf s L)) c := by
  obtain ⟨j, vfj, hj, hid, h0, hdur, hmem⟩ := h
  by_cases hij : j = i
  · subst hij
    have hv : vfj = vf := by
      rw [hj] at hget
      exact Option.some.inj hget
    subst hv
    obtain ⟨hlt, _⟩ := List.getElem?_eq_some.mp hj
    refine ⟨j, addUsedRange vfj s L, List.getElem?_set_self hlt, ?_, h0, ?_, ?_⟩
    · rw [addUsedRange_id]
      exact hid
    · rw [addUsedRange_duration]
      exact hdur
    · exact addUsedRange_mem vfj s L _ hmem
  · refine ⟨j, vfj, ?_, hid, h0, hdur, hmem⟩
    rw [List.getElem?_set_ne (fun hh => hij hh.symm)]
    exact hj

lemma clipOwned_new (files : List VideoFile) (i : ℕ) (vf : VideoFile) (s L : ℚ) (c : ClipInfo)
    (hget : files[i]? = some vf) (hfile : c.file = vf.id) (hstart : c.start = s)
    (hdur : c.duration = L) (h0 : 0 ≤ s) (hsL : s + L ≤ vf.duration) :
    ClipOwned (files.set i (addUsedRange vf s L)) c := by
  obtain ⟨hlt, _⟩ := List.getElem?_eq_some.mp hget
  refine ⟨i, addUsedRange vf s L, List.getElem?_set_self hlt, ?_, ?_, ?_, ?_⟩
  · rw [addUsedRange_id, hfile]
  · rw [hstart]
    exact h0
  · rw [addUsedRange_duration, hstart, hdur]
    exact hsL
  · rw [hstart, hdur]
    exact addUsedRange_self_mem vf s L

lemma selectClipsLoop_length (L : ℚ) (needed : ℤ) :
    ∀ (fuel : ℕ) (files : List VideoFile) (clips : List ClipInfo) (o : Oracle)
      (r : List ClipInfo) (fs : List VideoFile),
      selectClipsLoop L needed fuel files clips o = some (r, fs) →
      (r.length : ℤ) ≤ max (clips.length : ℤ) needed
  | 0, files, clips, o, r, fs => by
    intro h
    exact absurd h (by simp [selectClipsLoop])
  | Nat.succ fuel, files, clips, o, r, fs => by
    intro hrun
    unfold selectClipsLoop at hrun
    by_cases hguard : needed ≤ (clips.length : ℤ)
    · rw [if_pos hguard] at hrun
      have hr : clips = r := congrArg Prod.fst (Option.some.inj hrun)
      rw [← hr]
      exact le_max_left _ _
    · rw [if_neg hguard] at hrun
      simp only [] at hrun
      by_cases hav : availableFiles files L = []
      · rw [if_pos hav] at hrun
        have hr : clips = r := congrArg Prod.fst (Option.some.inj hrun)
        rw [← hr]
        exact le_max_left _ _
      · rw [if_neg hav] at hrun
        rcases hfind : findAvailablePosition (topHalfChoice (availableFiles files L) o).1.2 L
            (topHalfChoice (availableFiles files L) o).2 with _ | ⟨s, o2⟩
        · rw [hfind] at hrun
          exact selectClipsLoop_length L needed fuel files clips _ r fs hrun
        · rw [hfind] at hrun
          simp only [] at hrun
          have ih := selectClipsLoop_length L needed fuel _ _ _ r fs hrun
          rw [List.length_append] at ih
          simp only [List.length_singleton] at ih
          push_cast at ih
          have h2 : (clips.length : ℤ) + 1 ≤ needed := by omega
          have h3 : max ((clips.length : ℤ) + 1) needed = needed := max_eq_right h2
          rw [h3] at ih
          exact le_trans ih (le_max_right _ _)

lemma selectClipsLoop_inv (L : ℚ) (needed : ℤ) (hL : 0 < L) :
    ∀ (fuel : ℕ) (files : List VideoFile) (clips : List ClipInfo) (o : Oracle)
      (r : List ClipInfo) (fs : List VideoFile),
      FilesInv files → (∀ c ∈ clips, ClipOwned files c) →
      selectClipsLoop L needed fuel files clips o = some (r, fs) →
      FilesInv fs ∧ ∀ c ∈ r, ClipOwned fs c
  | 0, files, clips, o, r, fs => by
    intro _ _ h
    exact absurd h (by simp [selectClipsLoop])
  | Nat.succ fuel, files, clips, o, r, fs => by
    intro hinv hcl hrun
    unfold selectClipsLoop at hrun
    by_cases hguard : needed ≤ (clips.length : ℤ)
    · rw [if_pos hguard] at hrun
      have hr : clips = r := congrArg Prod.fst (Option.some.inj hrun)
      have hf : files = fs := congrArg Prod.snd (Option.some.inj hrun)
      rw [← hr, ← hf]
      exact ⟨hinv, hcl⟩
    · rw [if_neg hguard] at hrun
      simp only [] at hrun
      by_cases hav : availableFiles files L = []
      · rw [if_pos hav] at hrun
        have hr : clips = r := congrArg Prod.fst (Option.some.inj hrun)
        have hf : files = fs := congrArg Prod.snd (Option.some.inj hrun)
        rw [← hr, ← hf]
        exact ⟨hinv, hcl⟩
      · rw [if_neg hav] at hrun
        rcases hfind : findAvailablePosition (topHalfChoice (availableFiles files L) o).1.2 L
            (topHalfChoice (availableFiles files L) o).2 with _ | ⟨s, o2⟩
        · rw [hfind] at hrun
          exact selectClipsLoop_inv L needed hL fuel files clips _ r fs hinv hcl hrun
        · rw [hfind] at hrun
          simp only [] at hrun
          have hchoice := topHalfChoice_mem (availableFiles files L) o hav
          have hchoice2 : ((topHalfChoice (availableFiles files L) o).1.1,
              (topHalfChoice (availableFiles files L) o).1.2) ∈ availableFiles files L := by
            rw [Prod.mk.eta]
            exact hchoice
          obtain ⟨hget, hcan⟩ := availableFiles_mem files L _ _ hchoice2
          have hvfinv : TrackerInv (topHalfChoice (availableFiles files L) o).1.2 :=
            hinv _ (List.getElem?_mem hget)
          have hg := findPos_spec _ L s _ o2 hvfinv (canExtract_le _ L hcan) hfind
          have hinv2 := filesInv_set files (topHalfChoice (availableFiles files L) o).1.1
            (addUsedRange (topHalfChoice (availableFiles files L) o).1.2 s L) hinv
            (inv_addUsedRange _ s L hvfinv hg.1 hL.le hg.2.1 hg.2.2)
          refine selectClipsLoop_inv L needed hL fuel _ _ o2 r fs hinv2 ?_ hrun
          intro c hc
          rcases List.mem_append.mp hc with hc2 | hc2
          · exact clipOwned_set files _ _ s L c hget (hcl c hc2)
          · rcases List.mem_singleton.mp hc2 with rfl
            exact clipOwned_new files _ _ s L _ hget rfl rfl rfl hg.1 hg.2.1

lemma selectClips_cases (files : List VideoFile) (L total : ℚ) (fuel : ℕ) (o : Oracle)
    (r : List ClipInfo) (fs : List VideoFile)
    (hrun : selectClips files L total fuel o = some (r, fs)) :
    ∃ clips, selectClipsLoop L (numClipsNeeded files L total) fuel files [] o
        = some (clips, fs) ∧ r = List.insertionSort clipLe clips := by
  unfold selectClips at hrun
  simp only [] at hrun
  rcases hloop : selectClipsLoop L (numClipsNeeded files L total) fuel files [] o
      with _ | ⟨clips, files2⟩
  · rw [hloop] at hrun
    exact absurd hrun (by simp)
  · rw [hloop] at hrun
    simp only [] at hrun
    have hr : List.insertionSort clipLe clips = r := congrArg Prod.fst (Option.some.inj hrun)
    have hf : files2 = fs := congrArg Prod.snd (Option.some.inj hrun)
    subst hf
    exact ⟨clips, rfl, hr.symm⟩

lemma tryCandidate_best (w : ℚ) (selected : List Features) (L : ℚ) (i : ℕ) (vf : VideoFile)
    (best : BestCand) (o : Oracle) (outs : Outcomes) (avail : List (ℕ × VideoFile))
    (hbest : ∀ i2 vf2 s2 f2 sc2, best = some (i2, vf2, s2, f2, sc2) →
      (i2, vf2) ∈ avail ∧ GoodPos vf2 L s2)
    (hvf : (i, vf) ∈ avail) (hinv : TrackerInv vf) (hLD : L ≤ vf.duration) :
    ∀ i2 vf2 s2 f2 sc2,
      (tryCandidate w selected L i vf best o outs).1 = some (i2, vf2, s2, f2, sc2) →
      (i2, vf2) ∈ avail ∧ GoodPos vf2 L s2 := by
  intro i2 vf2 s2 f2 sc2 h
  unfold tryCandidate at h
  rcases hfind : findAvailablePosition vf L o with _ | ⟨s, o1⟩
  · rw [hfind] at h
    exact hbest _ _ _ _ _ h
  · rw [hfind] at h
    simp only [] at h
    split at h
    · simp only [Option.some.injEq, Prod.mk.injEq] at h
      obtain ⟨h1, h2, h3, _, _⟩ := h
      subst h1
      subst h2
      subst h3
      exact ⟨hvf, findPos_spec vf L s o o1 hinv hLD hfind⟩
    · exact hbest _ _ _ _ _ h

lemma tryCandidates_best (w : ℚ) (selected : List Features) (L : ℚ) (i : ℕ) (vf : VideoFile)
    (avail : List (ℕ × VideoFile)) (hvf : (i, vf) ∈ avail) (hinv : TrackerInv vf)
    (hLD : L ≤ vf.duration) :
    ∀ (n : ℕ) (best : BestCand) (o : Oracle) (outs : Outcomes),
      (∀ i2 vf2 s2 f2 sc2, best = some (i2, vf2, s2, f2, sc2) →
        (i2, vf2) ∈ avail ∧ GoodPos vf2 L s2) →
      ∀ i2 vf2 s2 f2 sc2,
        (tryCandidates w selected L i vf n best o outs).1 = some (i2, vf2, s2, f2, sc2) →
        (i2, vf2) ∈ avail ∧ GoodPos vf2 L s2
  | 0, best, o, outs => by
    intro hbest i2 vf2 s2 f2 sc2 h
    exact hbest _ _ _ _ _ h
  | Nat.succ n, best, o, outs => by
    intro hbest
    unfold tryCandidates
    simp only []
    exact tryCandidates_best w selected L i vf avail hvf hinv hLD n _ _ _
      (tryCandidate_best w selected L i vf best o outs avail hbest hvf hinv hLD)

lemma evalAllFiles_best (w : ℚ) (selected : List Features) (L : ℚ)
    (avail : List (ℕ × VideoFile)) :
    ∀ (pairs : List (ℕ × VideoFile)) (best : BestCand) (o : Oracle) (outs : Outcomes),
      (∀ p ∈ pairs, p ∈ avail ∧ TrackerInv p.2 ∧ L ≤ p.2.duration) →
      (∀ i2 vf2 s2 f2 sc2, best = some (i2, vf2, s2, f2, sc2) →
        (i2, vf2) ∈ avail ∧ GoodPos vf2 L s2) →
      ∀ i2 vf2 s2 f2 sc2,
        (evalAllFiles w selected L pairs best o outs).1 = some (i2, vf2, s2, f2, sc2) →
        (i2, vf2) ∈ avail ∧ GoodPos vf2 L s2
  | [], best, o, outs => by
    intro _ hbest i2 vf2 s2 f2 sc2 h
    exact hbest _ _ _ _ _ h
  | p :: rest, best, o, outs => by
    intro hall hbest
    unfold evalAllFiles
    simp only []
    have hp := hall p (List.mem_cons_self p rest)
    have hp2 : ((p.1, p.2) : ℕ × VideoFile) ∈ avail := by
      rw [Prod.mk.eta]
      exact hp.1
    exact evalAllFiles_best w selected L avail rest _ _ _
      (fun q hq => hall q (List.mem_cons_of_mem p hq))
      (tryCandidates_best w selected L p.1 p.2 avail hp2 hp.2.1 hp.2.2 5 best o outs hbest)

lemma selectClipsSmartLoop_length (L w : ℚ) (needed : ℤ) :
    ∀ (fuel : ℕ) (files : List VideoFile) (clips : List ClipInfo) (selected : List Features)
      (o : Oracle) (outs : Outcomes) (r : List ClipInfo) (fs : List VideoFile),
      selectClipsSmartLoop L w needed fuel files clips selected o outs = some (r, fs) →
      (r.length : ℤ) ≤ max (clips.length : ℤ) needed
  | 0, files, clips, selected, o, outs, r, fs => by
    intro h
    exact absurd h (by simp [selectClipsSmartLoop])
  | Nat.succ fuel, files, clips, selected, o, outs, r, fs => by
    intro hrun
    unfold selectClipsSmartLoop at hrun
    by_cases hguard : needed ≤ (clips.length : ℤ)
    · rw [if_pos hguard] at hrun
      have hr : clips = r := congrArg Prod.fst (Option.some.inj hrun)
      rw [← hr]
      exact le_max_left _ _
    · rw [if_neg hguard] at hrun
      simp only [] at hrun
      by_cases hav : availableFiles files L = []
      · rw [if_pos hav] at hrun
        have hr : clips = r := congrArg Prod.fst (Option.some.inj hrun)
        rw [← hr]
        exact le_max_left _ _
      · rw [if_neg hav] at hrun
        have hstep : ∀ (files2 : List VideoFile) (clips2 : List ClipInfo)
            (selected2 : List Features) (o2 : Oracle) (outs2 : Outcomes),
            clips2.length = clips.length + 1 →
            selectClipsSmartLoop L w needed fuel files2 clips2 selected2 o2 outs2
              = some (r, fs) →
            (r.length : ℤ) ≤ max (clips.length : ℤ) needed := by
          intro files2 clips2 selected2 o2 outs2 hlen hrun2
          have ih := selectClipsSmartLoop_length L w needed fuel files2 clips2 selected2
            o2 outs2 r fs hrun2
          rw [hlen] at ih
          push_cast at ih
          have h2 : (clips.length : ℤ) + 1 ≤ needed := by omega
          have h3 : max ((clips.length : ℤ) + 1) needed = needed := max_eq_right h2
          rw [h3] at ih
          exact le_trans ih (le_max_right _ _)
        rcases hev : (evalAllFiles w selected L (availableFiles files L) none o outs).1
            with _ | ⟨i, vf, s, f, sc⟩
        · rw [hev] at hrun
          simp only [] at hrun
          rcases hfind : findAvailablePosition
              (topHalfChoice (availableFiles files L)
                (evalAllFiles w selected L (availableFiles files L) none o outs).2.1).1.2 L
              (topHalfChoice (availableFiles files L)
                (evalAllFiles w selected L (availableFiles files L) none o outs).2.1).2
              with _ | ⟨s, o2⟩
          · rw [hfind] at hrun
            exact selectClipsSmartLoop_length L w needed fuel files clips selected _ _ r fs hrun
          · rw [hfind] at hrun
            simp only [] at hrun
            exact hstep _ _ _ _ _ (by simp) hrun
        · rw [hev] at hrun
          simp only [] at hrun
          exact hstep _ _ _ _ _ (by simp) hrun

lemma availableFiles_sound (files : List VideoFile) (L : ℚ) (hinv : FilesInv files) :
    ∀ p ∈ availableFiles files L, p ∈ availableFiles files L ∧ TrackerInv p.2 ∧
      L ≤ p.2.duration := by
  intro p hp
  have hp2 : ((p.1, p.2) : ℕ × VideoFile) ∈ availableFiles files L := by
    rw [Prod.mk.eta]
    exact hp
  obtain ⟨hget, hcan⟩ := availableFiles_mem files L p.1 p.2 hp2
  exact ⟨hp, hinv _ (List.getElem?_mem hget), canExtract_le _ L hcan⟩

lemma selectClipsSmartLoop_inv (L w : ℚ) (needed : ℤ) (hL : 0 < L) :
    ∀ (fuel : ℕ) (files : List VideoFile) (clips : List ClipInfo) (selected : List Features)
      (o : Oracle) (outs : Outcomes) (r : List ClipInfo) (fs : List VideoFile),
      FilesInv files → (∀ c ∈ clips, ClipOwned files c) →
      selectClipsSmartLoop L w needed fuel files clips selected o outs = some (r, fs) →
      FilesInv fs ∧ ∀ c ∈ r, ClipOwned fs c
  | 0, files, clips, selected, o, outs, r, fs => by
    intro _ _ h
    exact absurd h (by simp [selectClipsSmartLoop])
  | Nat.succ fuel, files, clips, selected, o, outs, r, fs => by
    intro hinv hcl hrun
    unfold selectClipsSmartLoop at hrun
    by_cases hguard : needed ≤ (clips.length : ℤ)
    · rw [if_pos hguard] at hrun
      have hr : clips = r := congrArg Prod.fst (Option.some.inj hrun)
      have hf : files = fs := congrArg Prod.snd (Option.some.inj hrun)
      rw [← hr, ← hf]
      exact ⟨hinv, hcl⟩
    · rw [if_neg hguard] at hrun
      simp only [] at hrun
      by_cases hav : availableFiles files L = []
      · rw [if_pos hav] at hrun
        have hr : clips = r := congrArg Prod.fst (Option.some.inj hrun)
        have hf : files = fs := congrArg Prod.snd (Option.some.inj hrun)
        rw [← hr, ← hf]
        exact ⟨hinv, hcl⟩
      · rw [if_neg hav] at hrun
        rcases hev : (evalAllFiles w selected L (availableFiles files L) none o outs).1
            with _ | ⟨i, vf, s, f, sc⟩
        · rw [hev] at hrun
          simp only [] at hrun
          rcases hfind : findAvailablePosition
              (topHalfChoice (availableFiles files L)
                (evalAllFiles w selected L (availableFiles files L) none o outs).2.1).1.2 L
              (topHalfChoice (availableFiles files L)
                (evalAllFiles w selected L (availableFiles files L) none o outs).2.1).2
              with _ | ⟨s, o2⟩
          · rw [hfind] at hrun
            exact selectClipsSmartLoop_inv L w needed hL fuel files clips selected _ _ r fs
              hinv hcl hrun
          · rw [hfind] at hrun
            simp only [] at hrun
            have hchoice := topHalfChoice_mem (availableFiles files L)
              (evalAllFiles w selected L (availableFiles files L) none o outs).2.1 hav
            have hchoice2 : ((topHalfChoice (availableFiles files L)
                (evalAllFiles w selected L (availableFiles files L) none o outs).2.1).1.1,
                (topHalfChoice (availableFiles files L)
                (evalAllFiles w selected L (availableFiles files L) none o outs).2.1).1.2)
                ∈ availableFiles files L := by
              rw [Prod.mk.eta]
              exact hchoice
            obtain ⟨hget, hcan⟩ := availableFiles_mem files L _ _ hchoice2
            have hvfinv : TrackerInv (topHalfChoice (availableFiles files L)
                (evalAllFiles w selected L (availableFiles files L) none o outs).2.1).1.2 :=
              hinv _ (List.getElem?_mem hget)
            have hg := findPos_spec _ L s _ o2 hvfinv (canExtract_le _ L hcan) hfind
            have hinv2 := filesInv_set files
              (topHalfChoice (availableFiles files L)
                (evalAllFiles w selected L (availableFiles files L) none o outs).2.1).1.1
              (addUsedRange (topHalfChoice (availableFiles files L)
                (evalAllFiles w selected L (availableFiles files L) none o outs).2.1).1.2 s L)
              hinv (inv_addUsedRange _ s L hvfinv hg.1 hL.le hg.2.1 hg.2.2)
            refine selectClipsSmartLoop_inv L w needed hL fuel _ _ _ _ _ r fs hinv2 ?_ hrun
            intro c hc
            rcases List.mem_append.mp hc with hc2 | hc2
            · exact clipOwned_set files _ _ s L c hget (hcl c hc2)
            · rcases List.mem_singleton.mp hc2 with rfl
              exact clipOwned_new files _ _ s L _ hget rfl rfl rfl hg.1 hg.2.1
        · rw [hev] at hrun
          simp only [] at hrun
          obtain ⟨hvfavail, hgood⟩ := evalAllFiles_best w selected L (availableFiles files L)
            (availableFiles files L) none o outs (availableFiles_sound files L hinv)
            (by intro i2 vf2 s2 f2 sc2 h; exact absurd h (by simp)) i vf s f sc hev
          obtain ⟨hget, hcan⟩ := availableFiles_mem files L i vf hvfavail
          have hvfinv : TrackerInv vf := hinv _ (List.getElem?_mem hget)
          have hinv2 := filesInv_set files i (addUsedRange vf s L) hinv
            (inv_addUsedRange _ s L hvfinv hgood.1 hL.le hgood.2.1 hgood.2.2)
          refine selectClipsSmartLoop_inv L w needed hL fuel _ _ _ _ _ r fs hinv2 ?_ hrun
          intro c hc
          rcases List.mem_append.mp hc with hc2 | hc2
          · exact clipOwned_set files _ _ s L c hget (hcl c hc2)
          · rcases List.mem_singleton.mp hc2 with rfl
            exact clipOwned_new files _ _ s L _ hget rfl rfl rfl hgood.1 hgood.2.1

lemma selectClipsSmart_cases (files : List VideoFile) (L total w : ℚ) (fuel : ℕ) (o : Oracle)
    (outs : Outcomes) (r : List ClipInfo) (fs : List VideoFile)
    (hrun : selectClipsSmart files L total w fuel o outs = some (r, fs)) :
    ∃ clips, selectClipsSmartLoop L w (numClipsNeeded files L total) fuel files [] []
        (sampleAllFiles (filePotentials files L) o outs).2.1
        (sampleAllFiles (filePotentials files L) o outs).2.2 = some (clips, fs) ∧
      r = List.insertionSort clipLe clips := by
  unfold selectClipsSmart at hrun
  simp only [] at hrun
  rcases hloop : selectClipsSmartLoop L w (numClipsNeeded files L total) fuel files [] []
      (sampleAllFiles (filePotentials files L) o outs).2.1
      (sampleAllFiles (filePotentials files L) o outs).2.2 with _ | ⟨clips, files2⟩
  · rw [hloop] at hrun
    exact absurd hrun (by simp)
  · rw [hloop] at hrun
    simp only [] at hrun
    have hr : List.insertionSort clipLe clips = r := congrArg Prod.fst (Option.some.inj hrun)
    have hf : files2 = fs := congrArg Prod.snd (Option.some.inj hrun)
    subst hf
    exact ⟨clips, rfl, hr.symm⟩

lemma totalPossibleClips_nonneg (files : List VideoFile) (L : ℚ) (hL : 0 < L) :
    0 ≤ totalPossibleClips files L := by
  unfold totalPossibleClips
  apply List.sum_nonneg
  intro x hx
  obtain ⟨p, hp, hpx⟩ := List.mem_map.mp hx
  obtain ⟨vf, _, hcond⟩ := List.mem_filterMap.mp hp
  by_cases hd : L ≤ vf.duration
  · rw [if_pos hd] at hcond
    have hp2 : p.2 = ⌊vf.duration / L⌋ :=
      (congrArg Prod.snd (Option.some.inj hcond)).symm
    rw [← hpx, hp2]
    exact Int.floor_nonneg.mpr (div_nonneg (le_trans hL.le hd) hL.le)
  · rw [if_neg hd] at hcond
    exact absurd hcond (by simp)

lemma numClipsNeeded_le (files : List VideoFile) (L total : ℚ) :
    numClipsNeeded files L total ≤ numClipsNeeded0 L total := by
  unfold numClipsNeeded
  simp only []
  split
  · exact le_of_lt (by assumption)
  · exact le_refl _

lemma numClipsNeeded_nonneg (files : List VideoFile) (L total : ℚ) (hL : 0 < L)
    (htot : 0 < total) : 0 ≤ numClipsNeeded files L total := by
  unfold numClipsNeeded
  simp only []
  split
  · exact totalPossibleClips_nonneg files L hL
  · unfold numClipsNeeded0
    exact Int.ceil_nonneg (div_nonneg htot.le hL.le)

lemma optimizeOneClip_rel (c : ClipInfo) (o : Oracle) (hd : 0 ≤ c.duration) :
    (optimizeOneClip c o).1.file = c.file ∧
    (optimizeOneClip c o).1.file_timestamp = c.file_timestamp ∧
    (optimizeOneClip c o).1.duration = c.duration ∧
    c.start ≤ (optimizeOneClip c o).1.start ∧
    (optimizeOneClip c o).1.start ≤ c.start + c.duration * (1 / 5) := by
  obtain ⟨hne, hbounds⟩ := detectSceneChanges_spec c.duration o hd
  rcases hsc : (detectSceneChanges c.duration o).1 with _ | ⟨x, rest⟩
  · exact absurd hsc hne
  · have heq := optimizeOneClip_eq c o x rest hsc
    rw [hsc] at hbounds
    obtain ⟨hmem, _, _⟩ := minByDistAux_spec (c.duration / 2) rest x
    have hmem2 : minByDistAux (c.duration / 2) x rest ∈ x :: rest := by
      rcases hmem with h | h
      · rw [h]
        exact List.mem_cons_self x rest
      · exact List.mem_cons_of_mem x h
    have hb := hbounds _ hmem2
    by_cases hcond : |minByDistAux (c.duration / 2) x rest| ≤ c.duration * (1 / 5)
    · rw [heq, if_pos hcond]
      have habs : minByDistAux (c.duration / 2) x rest ≤ c.duration * (1 / 5) :=
        le_trans (le_abs_self _) hcond
      exact ⟨rfl, rfl, rfl, by linarith [hb.1], by linarith⟩
    · rw [heq, if_neg hcond]
      exact ⟨rfl, rfl, rfl, le_refl _, by linarith⟩

lemma optimize_rel (clips : List ClipInfo) (o : Oracle)
    (hd : ∀ c ∈ clips, 0 ≤ c.duration) :
    List.Forall₂ (fun c c2 => c2.file = c.file ∧ c2.file_timestamp = c.file_timestamp ∧
      c2.duration = c.duration ∧ c.start ≤ c2.start ∧
      c2.start ≤ c.start + c.duration * (1 / 5)) clips (optimizeClipTransitions clips o) := by
  induction clips generalizing o with
  | nil => exact List.Forall₂.nil
  | cons c rest ih =>
    unfold optimizeClipTransitions
    simp only []
    exact List.Forall₂.cons (optimizeOneClip_rel c o (hd c (List.mem_cons_self c rest)))
      (ih _ (fun c2 hc2 => hd c2 (List.mem_cons_of_mem c hc2)))

lemma forall2_mem_right {α β : Type} {R : α → β → Prop} :
    ∀ {l : List α} {l2 : List β}, List.Forall₂ R l l2 → ∀ b ∈ l2, ∃ a ∈ l, R a b := by
  intro l l2 hf
  induction hf with
  | nil =>
    intro b hb
    exact absurd hb (List.not_mem_nil b)
  | cons hr hrest ih =>
    intro b hb
    rcases List.mem_cons.mp hb with rfl | hb2
    · exact ⟨_, List.mem_cons_self _ _, hr⟩
    · obtain ⟨a, ha, har⟩ := ih b hb2
      exact ⟨a, List.mem_cons_of_mem _ ha, har⟩

lemma pairwise_of_forall2 {α β : Type} {R : α → β → Prop} {S : α → α → Prop}
    {T : β → β → Prop} :
    ∀ {l : List α} {l2 : List β}, List.Forall₂ R l l2 → l.Pairwise S →
      (∀ a b a2 b2, R a a2 → R b b2 → S a b → T a2 b2) → l2.Pairwise T := by
  intro l l2 hf
  induction hf with
  | nil =>
    intro _ _
    exact List.Pairwise.nil
  | cons hr hrest ih =>
    intro hp himp
    rw [List.pairwise_cons] at hp ⊢
    refine ⟨?_, ih hp.2 himp⟩
    intro b2 hb2
    obtain ⟨b, hb, hbr⟩ := forall2_mem_right hrest b2 hb2
    exact himp _ b _ b2 hr hbr (hp.1 b hb)

/-- C4 (amended): both selection policies return a clip list sorted
non-decreasing lexicographically by `(file_timestamp, start)`.  The Transition
Optimizer preserves order, count, files, timestamps and durations and moves
each start forward by at most `0.2 * duration`, so sortedness survives when
equal-timestamp clips start at least `0.2 * duration` apart (as same-file
clips do under the `min_gap` invariant), but not in general: two files sharing
a timestamp can be reordered by the optimizer (see the counterexample). -/
theorem C4_sorted_output :
    (∀ (files : List VideoFile) (L total : ℚ) (fuel : ℕ) (o : Oracle)
      (r : List ClipInfo) (fs : List VideoFile),
      selectClips files L total fuel o = some (r, fs) → List.Sorted clipLe r) ∧
    (∀ (files : List VideoFile) (L total w : ℚ) (fuel : ℕ) (o : Oracle) (outs : Outcomes)
      (r : List ClipInfo) (fs : List VideoFile),
      selectClipsSmart files L total w fuel o outs = some (r, fs) → List.Sorted clipLe r) ∧
    (∀ (clips : List ClipInfo) (o : Oracle), (∀ c ∈ clips, 0 ≤ c.duration) →
      clips.Pairwise (fun c c2 => c.file_timestamp = c2.file_timestamp →
        c.start + c.duration * (1 / 5) ≤ c2.start) →
      List.Sorted clipLe clips → List.Sorted clipLe (optimizeClipTransitions clips o)) := by
  refine ⟨?_, ?_, ?_⟩
  · intro files L total fuel o r fs hrun
    obtain ⟨clips, _, hr⟩ := selectClips_cases files L total fuel o r fs hrun
    rw [hr]
    exact List.sorted_insertionSort clipLe clips
  · intro files L total w fuel o outs r fs hrun
    obtain ⟨clips, _, hr⟩ := selectClipsSmart_cases files L total w fuel o outs r fs hrun
    rw [hr]
    exact List.sorted_insertionSort clipLe clips
  · intro clips o hd hsep hsorted
    have hrel := optimize_rel clips o hd
    refine pairwise_of_forall2 hrel (List.Pairwise.and hsorted hsep) ?_
    intro a b a2 b2 hra hrb hab
    obtain ⟨hle, hsepab⟩ := hab
    obtain ⟨_, hts_a, hdur_a, hstart_a, hstart_a2⟩ := hra
    obtain ⟨_, hts_b, hdur_b, hstart_b, hstart_b2⟩ := hrb
    rcases hle with hlt | ⟨hts, hst⟩
    · exact Or.inl (by rw [hts_a, hts_b]; exact hlt)
    · have hbound := hsepab hts
      refine Or.inr ⟨by rw [hts_a, hts_b]; exact hts, ?_⟩
      linarith [hstart_a2, hbound, hstart_b]

/-- Witness for the amended C4 on a concrete run of the plain policy. -/
theorem C4_sorted_output_witness :
    List.Sorted clipLe [⟨0, 0, 5, 0, 0, 0, 0⟩] :=
  C4_sorted_output.1 [⟨0, 10, 0, []⟩] 5 10 3 [0, 0] [⟨0, 0, 5, 0, 0, 0, 0⟩]
    [⟨0, 10, 0, [(0, 5)]⟩] (by with_unfolding_all decide)

/-- C4 (counterexample): two source files share the timestamp `7`; the plain
policy returns a sorted list, but the optimizer shifts the first clip by `1.0`
(within tolerance) past the second clip's start, so the final output is no
longer sorted by `(timestamp, start)`. -/
theorem C4_counterexample :
    selectClips [⟨0, 6, 7, []⟩, ⟨1, 13/2, 7, []⟩] 5 10 3 [0, 1/3, 0, 0]
      = some ([⟨0, 0, 5, 7, 0, 0, 0⟩, ⟨1, 1/2, 5, 7, 0, 0, 0⟩],
              [⟨0, 6, 7, [(0, 5)]⟩, ⟨1, 13/2, 7, [(1/2, 11/2)]⟩]) ∧
    optimizeClipTransitions [⟨0, 0, 5, 7, 0, 0, 0⟩, ⟨1, 1/2, 5, 7, 0, 0, 0⟩] [0, 1/5, 0, 0]
      = [⟨0, 1, 5, 7, 0, 0, 0⟩, ⟨1, 1/2, 5, 7, 0, 0, 0⟩] ∧
    ¬ List.Sorted clipLe [⟨0, 1, 5, 7, 0, 0, 0⟩, ⟨1, 1/2, 5, 7, 0, 0, 0⟩] := by
  refine ⟨by with_unfolding_all decide, by with_unfolding_all decide, ?_⟩
  intro h
  have h2 := (List.pairwise_cons.mp h).1 ⟨1, 1/2, 5, 7, 0, 0, 0⟩
    (List.mem_cons_self _ _)
  rcases h2 with h3 | ⟨_, h3⟩
  · exact absurd h3 (by norm_num)
  · exact absurd h3 (by norm_num)

/-- C5 (amended): for both policies the number of returned clips is at most
`num_clips_needed = min(ceil(total / L), total_possible_clips)`, which is at
most `ceil(total / L)`; but the loop may stop short of `num_clips_needed` even
when the potentials-based capacity suffices, because `can_extract_clip` can
reject every file before the count is reached (see the counterexample).  When
no source meets the minimum clip length, the plain policy returns an empty
list without raising. -/
theorem C5_clip_count :
    (∀ (files : List VideoFile) (L total : ℚ) (fuel : ℕ) (o : Oracle)
      (r : List ClipInfo) (fs : List VideoFile),
      0 < L → 0 < total → selectClips files L total fuel o = some (r, fs) →
      (r.length : ℤ) ≤ numClipsNeeded files L total ∧
      numClipsNeeded files L total ≤ numClipsNeeded0 L total) ∧
    (∀ (files : List VideoFile) (L total w : ℚ) (fuel : ℕ) (o : Oracle) (outs : Outcomes)
      (r : List ClipInfo) (fs : List VideoFile),
      0 < L → 0 < total → selectClipsSmart files L total w fuel o outs = some (r, fs) →
      (r.length : ℤ) ≤ numClipsNeeded files L total) ∧
    (∀ (files : List VideoFile) (L total : ℚ) (fuel : ℕ) (o : Oracle),
      (∀ f ∈ files, f.duration < L) → 0 < fuel →
      selectClips files L total fuel o = some ([], files)) := by
  refine ⟨?_, ?_, ?_⟩
  · intro files L total fuel o r fs hL htot hrun
    obtain ⟨clips, hloop, hr⟩ := selectClips_cases files L total fuel o r fs hrun
    have hlen := selectClipsLoop_length L (numClipsNeeded files L total) fuel files [] o
      clips fs hloop
    have hnn := numClipsNeeded_nonneg files L total hL htot
    have hperm := List.perm_insertionSort clipLe clips
    constructor
    · rw [hr]
      rw [hperm.length_eq]
      simp only [List.length_nil, Nat.cast_zero] at hlen
      rw [max_eq_right hnn] at hlen
      exact hlen
    · exact numClipsNeeded_le files L total
  · intro files L total w fuel o outs r fs hL htot hrun
    obtain ⟨clips, hloop, hr⟩ := selectClipsSmart_cases files L total w fuel o outs r fs hrun
    have hlen := selectClipsSmartLoop_length L w (numClipsNeeded files L total) fuel files [] []
      _ _ clips fs hloop
    have hnn := numClipsNeeded_nonneg files L total hL htot
    have hperm := List.perm_insertionSort clipLe clips
    rw [hr, hperm.length_eq]
    simp only [List.length_nil, Nat.cast_zero] at hlen
    rw [max_eq_right hnn] at hlen
    exact hlen
  · intro files L total fuel o hshort hfuel
    have hpot : filePotentials files L = [] := by
      unfold filePotentials
      rw [List.filterMap_eq_nil_iff]
      intro vf hvf
      rw [if_neg (not_le.mpr (hshort vf hvf))]
    have hneed : numClipsNeeded files L total ≤ 0 := by
      unfold numClipsNeeded totalPossibleClips
      rw [hpot]
      simp only [List.map_nil, List.sum_nil]
      split
      · exact le_refl 0
      · omega
    obtain ⟨m, rfl⟩ := Nat.exists_eq_succ_of_ne_zero hfuel.ne'
    unfold selectClips selectClipsLoop
    simp only []
    rw [if_pos (by simpa using hneed)]
    rfl

/-- Witness for the amended C5: no source meets the minimum length. -/
theorem C5_clip_count_witness :
    selectClips [⟨0, 1, 0, []⟩] 2 5 1 [] = some ([], [⟨0, 1, 0, []⟩]) :=
  C5_clip_count.2.2 [⟨0, 1, 0, []⟩] 2 5 1 []
    (by intro f hf; rcases List.mem_singleton.mp hf with rfl; norm_num) (by norm_num)

/-- C5 (counterexample): one file of duration `10`, clip length `5`, target
`10`: the code's own capacity measure says `total_possible_clips = 2 =
num_clips_needed`, yet after the first commit at offset `0` no file passes
`can_extract_clip` (the remainder `5` is less than `5 + min_gap`), so the run
returns a single clip instead of `2`. -/
theorem C5_counterexample :
    numClipsNeeded [⟨0, 10, 0, []⟩] 5 10 = 2 ∧
    totalPossibleClips [⟨0, 10, 0, []⟩] 5 = 2 ∧
    selectClips [⟨0, 10, 0, []⟩] 5 10 3 [0, 0]
      = some ([⟨0, 0, 5, 0, 0, 0, 0⟩], [⟨0, 10, 0, [(0, 5)]⟩]) ∧
    (([⟨0, 0, 5, 0, 0, 0, 0⟩] : List ClipInfo).length : ℤ) < 2 := by
  with_unfolding_all decide

/-- C7 (amended): every clip returned by either selection policy satisfies
`start ≥ 0`, `start + duration ≤ source.total_duration`, and its exact window
`(start, start + duration)` is registered in the owning file's committed set.
The Transition Optimizer then moves each start forward by up to
`0.2 * duration` while keeping the duration, so the final window may extend
past the committed interval and even past `total_duration` (see the
counterexample); the claim as stated is false after the optimizer. -/
theorem C7_clip_windows :
    (∀ (files : List VideoFile) (L total : ℚ) (fuel : ℕ) (o : Oracle)
      (r : List ClipInfo) (fs : List VideoFile),
      0 < L → FilesInv files → selectClips files L total fuel o = some (r, fs) →
      ∀ c ∈ r, ClipOwned fs c) ∧
    (∀ (files : List VideoFile) (L total w : ℚ) (fuel : ℕ) (o : Oracle) (outs : Outcomes)
      (r : List ClipInfo) (fs : List VideoFile),
      0 < L → FilesInv files → selectClipsSmart files L total w fuel o outs = some (r, fs) →
      ∀ c ∈ r, ClipOwned fs c) ∧
    (∀ (clips : List ClipInfo) (o : Oracle), (∀ c ∈ clips, 0 ≤ c.duration) →
      List.Forall₂ (fun c c2 => c2.file = c.file ∧ c2.file_timestamp = c.file_timestamp ∧
        c2.duration = c.duration ∧ c.start ≤ c2.start ∧
        c2.start ≤ c.start + c.duration * (1 / 5)) clips (optimizeClipTransitions clips o)) := by
  refine ⟨?_, ?_, optimize_rel⟩
  · intro files L total fuel o r fs hL hinv hrun c hc
    obtain ⟨clips, hloop, hr⟩ := selectClips_cases files L total fuel o r fs hrun
    have hmain := selectClipsLoop_inv L (numClipsNeeded files L total) hL fuel files [] o
      clips fs hinv (fun c2 hc2 => absurd hc2 (List.not_mem_nil c2)) hloop
    rw [hr] at hc
    exact hmain.2 c ((List.perm_insertionSort clipLe clips).mem_iff.mp hc)
  · intro files L total w fuel o outs r fs hL hinv hrun c hc
    obtain ⟨clips, hloop, hr⟩ := selectClipsSmart_cases files L total w fuel o outs r fs hrun
    have hmain := selectClipsSmartLoop_inv L w (numClipsNeeded files L total) hL fuel files
      [] [] _ _ clips fs hinv (fun c2 hc2 => absurd hc2 (List.not_mem_nil c2)) hloop
    rw [hr] at hc
    exact hmain.2 c ((List.perm_insertionSort clipLe clips).mem_iff.mp hc)

/-- Witness for the amended C7 on a concrete run of the plain policy. -/
theorem C7_clip_windows_witness :
    ∀ c ∈ [(⟨0, 1, 5, 0, 0, 0, 0⟩ : ClipInfo)], ClipOwned [⟨0, 6, 0, [(1, 6)]⟩] c :=
  C7_clip_windows.1 [⟨0, 6, 0, []⟩] 5 5 2 [0, 1] [⟨0, 1, 5, 0, 0, 0, 0⟩] [⟨0, 6, 0, [(1, 6)]⟩]
    (by norm_num)
    (by
      intro f hf
      rcases List.mem_singleton.mp hf with rfl
      exact ⟨fun r hr => absurd hr (List.not_mem_nil r), List.Pairwise.nil⟩)
    (by with_unfolding_all decide)

/-- C7 (counterexample): a clip committed as `(1, 6)` in a file of duration
`6` is shifted by the optimizer to start `2` with duration `5`; its window now
ends at `7 > 6 = total_duration` and leaves the committed interval, violating
the claimed invariant for the final output. -/
theorem C7_counterexample :
    selectClips [⟨0, 6, 0, []⟩] 5 5 2 [0, 1]
      = some ([⟨0, 1, 5, 0, 0, 0, 0⟩], [⟨0, 6, 0, [(1, 6)]⟩]) ∧
    optimizeClipTransitions [⟨0, 1, 5, 0, 0, 0, 0⟩] [0, 1/5] = [⟨0, 2, 5, 0, 0, 0, 0⟩] ∧
    ¬ ((2 : ℚ) + 5 ≤ 6) := by
  refine ⟨by with_unfolding_all decide, by with_unfolding_all decide, by norm_num⟩

lemma plainStuckStep (n : ℕ) (o : Oracle) :
    selectClipsLoop 4 2 (n + 1) [⟨0, 10, 0, [(3, 7)]⟩] [⟨0, 3, 4, 0, 0, 0, 0⟩] o
      = selectClipsLoop 4 2 n [⟨0, 10, 0, [(3, 7)]⟩] [⟨0, 3, 4, 0, 0, 0, 0⟩] (onext o).2 := by
  with_unfolding_all rfl

lemma plainStuck : ∀ (fuel : ℕ) (o : Oracle),
    selectClipsLoop 4 2 fuel [⟨0, 10, 0, [(3, 7)]⟩] [⟨0, 3, 4, 0, 0, 0, 0⟩] o = none
  | 0, o => rfl
  | Nat.succ n, o => by
    rw [plainStuckStep n o]
    exact plainStuck n (onext o).2

lemma plainEntry (n : ℕ) :
    selectClipsLoop 4 2 (n + 1) [⟨0, 10, 0, []⟩] [] [0, 1/2]
      = selectClipsLoop 4 2 n [⟨0, 10, 0, [(3, 7)]⟩] [⟨0, 3, 4, 0, 0, 0, 0⟩] [] := by
  with_unfolding_all rfl

lemma smartStuckStep (n : ℕ) (o : Oracle) (outs : Outcomes) :
    selectClipsSmartLoop 4 (1/2) 2 (n + 1) [⟨0, 10, 0, [(3, 7)]⟩]
        [⟨0, 3, 4, 0, 9/10, 9/10, 9/10⟩] [⟨9/10, 9/10, 9/10⟩] o outs
      = selectClipsSmartLoop 4 (1/2) 2 n [⟨0, 10, 0, [(3, 7)]⟩]
        [⟨0, 3, 4, 0, 9/10, 9/10, 9/10⟩] [⟨9/10, 9/10, 9/10⟩] (onext o).2 outs := by
  with_unfolding_all rfl

lemma smartStuck : ∀ (fuel : ℕ) (o : Oracle) (outs : Outcomes),
    selectClipsSmartLoop 4 (1/2) 2 fuel [⟨0, 10, 0, [(3, 7)]⟩]
      [⟨0, 3, 4, 0, 9/10, 9/10, 9/10⟩] [⟨9/10, 9/10, 9/10⟩] o outs = none
  | 0, o, outs => rfl
  | Nat.succ n, o, outs => by
    rw [smartStuckStep n o outs]
    exact smartStuck n (onext o).2 outs

lemma smartEntry (n : ℕ) :
    selectClipsSmartLoop 4 (1/2) 2 (n + 1) [⟨0, 10, 0, []⟩] [] []
        [1/2, 1, 1, 1, 0, 0, 0, 0, 0, 0, 0, 0, 0, 0, 0, 0, 0, 0, 0, 0] []
      = selectClipsSmartLoop 4 (1/2) 2 n [⟨0, 10, 0, [(3, 7)]⟩]
        [⟨0, 3, 4, 0, 9/10, 9/10, 9/10⟩] [⟨9/10, 9/10, 9/10⟩] [] [] := by
  with_unfolding_all rfl

/-- C8: refuted (code bug).  With a single source of duration `10`, clip
length `4`, target `8`, and a first committed position of `3.0` (drawn with
probability `2/3`), every later iteration finds `can_extract_clip` true via
its `available_duration` fallback while `find_available_position` raises, so
`continue` restarts the loop with unchanged state and neither selection
function ever terminates.  With the loop modelled on fuel: for every fuel
bound, both `select_clips` and `select_clips_smart` fail to complete on this
input. -/
theorem C8_nontermination :
    (∀ fuel : ℕ, selectClips [⟨0, 10, 0, []⟩] 4 8 fuel [0, 1/2] = none) ∧
    (∀ fuel : ℕ, selectClipsSmart [⟨0, 10, 0, []⟩] 4 8 (1/2) fuel
      [0, 0, 0, 0, 0, 0, 0, 0, 0, 1/2, 1, 1, 1, 0, 0, 0, 0, 0, 0, 0, 0, 0, 0, 0, 0, 0, 0, 0, 0]
      [] = none) := by
  constructor
  · intro fuel
    cases fuel with
    | zero => rfl
    | succ n =>
      unfold selectClips
      simp only []
      rw [show numClipsNeeded [⟨0, 10, 0, []⟩] 4 8 = 2 from by with_unfolding_all decide]
      rw [plainEntry n, plainStuck n []]
  · intro fuel
    cases fuel with
    | zero => rfl
    | succ n =>
      unfold selectClipsSmart
      simp only []
      rw [show numClipsNeeded [⟨0, 10, 0, []⟩] 4 8 = 2 from by with_unfolding_all decide]
      rw [show (sampleAllFiles (filePotentials [⟨0, 10, 0, []⟩] 4)
          [0, 0, 0, 0, 0, 0, 0, 0, 0, 1/2, 1, 1, 1, 0, 0, 0, 0, 0, 0, 0, 0, 0, 0, 0, 0, 0, 0,
            0, 0] []).2.1
          = [1/2, 1, 1, 1, 0, 0, 0, 0, 0, 0, 0, 0, 0, 0, 0, 0, 0, 0, 0, 0] from by
        with_unfolding_all decide]
      rw [show (sampleAllFiles (filePotentials [⟨0, 10, 0, []⟩] 4)
          [0, 0, 0, 0, 0, 0, 0, 0, 0, 1/2, 1, 1, 1, 0, 0, 0, 0, 0, 0, 0, 0, 0, 0, 0, 0, 0, 0,
            0, 0] []).2.2 = ([] : Outcomes) from by with_unfolding_all decide]
      rw [smartEntry n, smartStuck n [] []]

end P2V
